import Mathlib

/-!
Formal model of `src/scraper.py` (repository Demolitionist/scrape).

Modelling conventions:
* Python `str` values are modelled as `List Char` (a Python string is a
  sequence of Unicode code points, which is exactly what `List Char` is).
* Python `bytes` values are modelled as `List Nat` with every element below
  256.
* Functions that can raise and are wrapped in `try/except` are modelled as
  functions into `Option`/`Except`.
* Library calls (`base64.b64decode`, `str.lower`, `re` word boundaries,
  `urllib.parse.unquote`, `json.loads`, ...) are modelled by their documented
  semantics.  Unicode-aware predicates (`str.lower`, `str.isalnum`, the regex
  class `\w`, `str.strip`) are modelled on the character ranges that actually
  occur in this repository's data: ASCII, plus the Arabic block used by the
  Persian keywords.
* The source file contains an unresolved git merge conflict.  Where the two
  sides differ (the keyword pre-filtering inside `main`), the model follows
  the `80b6e0f` side, which is the variant the repository's specification
  describes; the conflict does not affect the keyword-matching rule itself,
  the filter, the resolver or the `match_found` control flow, which are
  identical on both sides.
-/

/-- Coerce a Lean string literal to the `List Char` representation used
throughout this model. -/
def strL (s : String) : List Char := s.data

/-- ASCII lowercasing of one character.  Models Python `str.lower` on the
ASCII range (the only range the fixed marker phrase and the keyword matching
in this program compare case-insensitively). -/
def toLowerChar (c : Char) : Char :=
  if 'A' ≤ c ∧ c ≤ 'Z' then Char.ofNat (c.toNat + 32) else c

/-- Models Python `str.lower` (ASCII range). -/
def lowerL (l : List Char) : List Char := l.map toLowerChar

/-- Does the first list start with the second?  Models Python
`str.startswith` / matching a literal at the head of a string. -/
def startsWithL : List Char → List Char → Bool
  | _, [] => true
  | [], _ :: _ => false
  | c :: cs, d :: ds => if c = d then startsWithL cs ds else false

/-- Substring containment: models the Python operator `needle in haystack`
for strings (first argument is the haystack). -/
def containsSubL : List Char → List Char → Bool
  | [], needle => startsWithL [] needle
  | c :: rest, needle => startsWithL (c :: rest) needle || containsSubL rest needle

/-- Models Python `config.count('%25')`: the number of non-overlapping
occurrences of the three-character literal `%25`, scanning left to right. -/
def count_percent25 : List Char → Nat
  | '%' :: '2' :: '5' :: rest => 1 + count_percent25 rest
  | _ :: rest => count_percent25 rest
  | [] => 0

/-- Configuration constant `MAX_CONFIG_LENGTH` from scraper.py. -/
def MAX_CONFIG_LENGTH : Nat := 1500

/-- Configuration constant `MIN_PERCENT25_COUNT` from scraper.py. -/
def MIN_PERCENT25_COUNT : Nat := 15

/-- Model of `should_filter_config` (scraper.py lines 102-116): the
early-return chain of the four rejection heuristics.  Logging is pure
output and is not modelled. -/
def should_filter_config (config : List Char) : Bool :=
  if containsSubL (lowerL config) (strL "i_love_") then true
  else if MIN_PERCENT25_COUNT ≤ count_percent25 config then true
  else if MAX_CONFIG_LENGTH ≤ config.length then true
  else if containsSubL config (strL "%2525") then true
  else false

/-- `n` copies of the list `l`, concatenated.  Used to build the
`"%25" * n` test descriptors. -/
def repList : Nat → List Char → List Char
  | 0, _ => []
  | n + 1, l => l ++ repList n l

/-- C3: `should_filter_config` returns true iff at least one of the four
conditions holds: case-insensitive containment of the marker `i_love_`,
at least 15 non-overlapping occurrences of `%25`, length at least 1500,
or containment of `%2525`. -/
theorem c3_filter_iff (config : List Char) :
    should_filter_config config = true ↔
      (containsSubL (lowerL config) (strL "i_love_") = true ∨
       MIN_PERCENT25_COUNT ≤ count_percent25 config ∨
       MAX_CONFIG_LENGTH ≤ config.length ∨
       containsSubL config (strL "%2525") = true) := by
  unfold should_filter_config
  split_ifs with h1 h2 h3 h4 <;> simp_all

/-- C4: `should_filter_config` is a pure predicate (equal inputs give equal
results), a descriptor consisting of 15 copies of `%25` is rejected, and one
consisting of 14 copies is not rejected. -/
theorem c4_filter_pure_and_threshold :
    (∀ c₁ c₂ : List Char, c₁ = c₂ →
        should_filter_config c₁ = should_filter_config c₂) ∧
      should_filter_config (repList 15 (strL "%25")) = true ∧
      should_filter_config (repList 14 (strL "%25")) = false := by
  refine ⟨fun c₁ c₂ h => by rw [h], ?_, ?_⟩ <;> decide

/-- Witness for C4: the purity clause applied at a concrete input. -/
theorem c4_witness :
    should_filter_config (strL "vmess://abc") =
      should_filter_config (strL "vmess://abc") :=
  c4_filter_pure_and_threshold.1 _ _ rfl

/-! ## Base64 and UTF-8

`decode_base64` (scraper.py lines 57-65) maps `_`/`-` to `/`/`+`, pads the
input to a multiple of four characters with `=`, calls `base64.b64decode`
and decodes the resulting bytes as UTF-8; every failure is caught and turned
into `None`. -/

/-- The base64 decoding table: the sextet value of a character of the
standard alphabet, `none` for every other character. -/
def decodeSextet (c : Char) : Option Nat :=
  if 65 ≤ c.toNat ∧ c.toNat ≤ 90 then some (c.toNat - 65)
  else if 97 ≤ c.toNat ∧ c.toNat ≤ 122 then some (c.toNat - 71)
  else if 48 ≤ c.toNat ∧ c.toNat ≤ 57 then some (c.toNat + 4)
  else if c.toNat = 43 then some 62
  else if c.toNat = 47 then some 63
  else none

/-- The standard base64 alphabet character for a sextet value below 64. -/
def encodeSextet (v : Nat) : Char :=
  if v < 26 then Char.ofNat (65 + v)
  else if v < 52 then Char.ofNat (97 + v - 26)
  else if v < 62 then Char.ofNat (48 + v - 52)
  else if v = 62 then '+'
  else '/'

/-- Model of CPython `binascii.a2b_base64` in its default non-strict mode,
which is what `base64.b64decode(s)` calls: characters outside the alphabet
are discarded; `=` is counted as padding once the current quad has at least
two data characters and decoding stops as soon as the quad is completed by
padding; a final incomplete quad is an error (`none`).  The arguments are
the quad position (0-3), the pending high bits, the number of pending pads,
and the remaining input. -/
def a2bAux : Nat → Nat → Nat → List Char → Option (List Nat)
  | quadPos, _, _, [] => if quadPos = 0 then some [] else none
  | quadPos, leftchar, pads, c :: rest =>
    if c = '=' then
      if 2 ≤ quadPos then
        if 4 ≤ quadPos + (pads + 1) then some []
        else a2bAux quadPos leftchar (pads + 1) rest
      else a2bAux quadPos leftchar pads rest
    else
      match decodeSextet c with
      | none => a2bAux quadPos leftchar pads rest
      | some v =>
        match quadPos with
        | 0 => a2bAux 1 v 0 rest
        | 1 => (a2bAux 2 (v % 16) 0 rest).map (fun out => (leftchar * 4 + v / 16) :: out)
        | 2 => (a2bAux 3 (v % 4) 0 rest).map (fun out => (leftchar * 16 + v / 4) :: out)
        | _ => (a2bAux 0 0 0 rest).map (fun out => (leftchar * 64 + v) :: out)

/-- Decoding of one two-byte UTF-8 sequence with lead byte `b0`
(0xC0-0xDF): requires `b0` at least 0xC2 (no overlong encodings) and one
continuation byte; returns the character and the remaining bytes. -/
def utf8Step2 (b0 : Nat) : List Nat → Option (Char × List Nat)
  | b1 :: rest =>
    if 0xC2 ≤ b0 ∧ 0x80 ≤ b1 ∧ b1 < 0xC0 then
      some (Char.ofNat ((b0 - 0xC0) * 64 + (b1 - 0x80)), rest)
    else none
  | [] => none

/-- Decoding of one three-byte UTF-8 sequence with lead byte `b0`
(0xE0-0xEF): two continuation bytes, code point at least 0x800 (no overlong
encodings) and not a surrogate. -/
def utf8Step3 (b0 : Nat) : List Nat → Option (Char × List Nat)
  | b1 :: b2 :: rest =>
    if 0x80 ≤ b1 ∧ b1 < 0xC0 ∧ 0x80 ≤ b2 ∧ b2 < 0xC0 ∧
        0x800 ≤ (b0 - 0xE0) * 4096 + (b1 - 0x80) * 64 + (b2 - 0x80) ∧
        ((b0 - 0xE0) * 4096 + (b1 - 0x80) * 64 + (b2 - 0x80) < 0xD800 ∨
          0xDFFF < (b0 - 0xE0) * 4096 + (b1 - 0x80) * 64 + (b2 - 0x80)) then
      some (Char.ofNat ((b0 - 0xE0) * 4096 + (b1 - 0x80) * 64 + (b2 - 0x80)), rest)
    else none
  | _ => none

/-- Decoding of one four-byte UTF-8 sequence with lead byte `b0` (0xF0 and
above): lead byte below 0xF8, three continuation bytes, code point between
0x10000 and 0x10FFFF. -/
def utf8Step4 (b0 : Nat) : List Nat → Option (Char × List Nat)
  | b1 :: b2 :: b3 :: rest =>
    if b0 < 0xF8 ∧ 0x80 ≤ b1 ∧ b1 < 0xC0 ∧ 0x80 ≤ b2 ∧ b2 < 0xC0 ∧
        0x80 ≤ b3 ∧ b3 < 0xC0 ∧
        0x10000 ≤ (b0 - 0xF0) * 262144 + (b1 - 0x80) * 4096 + (b2 - 0x80) * 64 + (b3 - 0x80) ∧
        (b0 - 0xF0) * 262144 + (b1 - 0x80) * 4096 + (b2 - 0x80) * 64 + (b3 - 0x80) < 0x110000 then
      some
        (Char.ofNat
          ((b0 - 0xF0) * 262144 + (b1 - 0x80) * 4096 + (b2 - 0x80) * 64 + (b3 - 0x80)), rest)
    else none
  | _ => none

/-- Decoding of one UTF-8 scalar value from the head of a byte sequence,
dispatching on the class of the lead byte; `none` on any invalid sequence
(this is what makes the overall decode strict). -/
def utf8Step : List Nat → Option (Char × List Nat)
  | [] => none
  | b0 :: rest =>
    if b0 < 0x80 then some (Char.ofNat b0, rest)
    else if b0 < 0xE0 then utf8Step2 b0 rest
    else if b0 < 0xF0 then utf8Step3 b0 rest
    else utf8Step4 b0 rest

/-- Fuel-indexed iteration of `utf8Step`; every step consumes at least one
byte, so fuel equal to the length of the input is always enough. -/
def utf8DecodeLoop : Nat → List Nat → Option (List Char)
  | _, [] => some []
  | 0, _ :: _ => none
  | fuel + 1, b0 :: rest =>
    match utf8Step (b0 :: rest) with
    | none => none
    | some (c, rest2) => (utf8DecodeLoop fuel rest2).map (fun cs => c :: cs)

/-- Model of Python `bytes.decode('utf-8')` (strict errors): rejects invalid
lead bytes, truncated sequences, overlong encodings, surrogates and code
points above 0x10FFFF. -/
def utf8DecodeStrict (l : List Nat) : Option (List Char) := utf8DecodeLoop l.length l

/-- The two exceptions that the `try` block of `decode_base64` can catch:
a `binascii.Error` from `base64.b64decode`, or a `UnicodeDecodeError` from
`bytes.decode('utf-8')`. -/
inductive DecodeErr where
  | badBase64
  | badUtf8
deriving DecidableEq

/-- `data.replace('_', '/')` from `decode_base64`, as a character map. -/
def replUnderscore (c : Char) : Char := if c = '_' then '/' else c

/-- `data.replace('-', '+')` from `decode_base64`, as a character map. -/
def replDash (c : Char) : Char := if c = '-' then '+' else c

/-- The padding repair of `decode_base64` (lines 60-62): if the length is
not a multiple of four, append `=` up to the next multiple of four. -/
def b64pad (l : List Char) : List Char :=
  if l.length % 4 = 0 then l else l ++ List.replicate (4 - l.length % 4) '='

/-- The body of `decode_base64` (scraper.py lines 58-63), before the
enclosing `try/except`: replace `_` with `/` and `-` with `+`, pad with `=`
to a multiple of four characters, base64-decode, UTF-8-decode. -/
def decode_base64_steps (data : List Char) : Except DecodeErr (List Char) :=
  match a2bAux 0 0 0 (b64pad ((data.map replUnderscore).map replDash)) with
  | none => .error .badBase64
  | some bytes =>
    match utf8DecodeStrict bytes with
    | none => .error .badUtf8
    | some s => .ok s

/-- Model of `decode_base64` (scraper.py lines 57-65): the body with every
exception caught and mapped to `None`. -/
def decode_base64 (data : List Char) : Option (List Char) :=
  match decode_base64_steps data with
  | .ok s => some s
  | .error _ => none

/-- Standard base64 encoding of a byte sequence (Python
`base64.b64encode`), used to state the round-trip property. -/
def b64encode : List Nat → List Char
  | [] => []
  | [b0] => [encodeSextet (b0 / 4), encodeSextet (b0 % 4 * 16), '=', '=']
  | [b0, b1] =>
    [encodeSextet (b0 / 4), encodeSextet (b0 % 4 * 16 + b1 / 16),
      encodeSextet (b1 % 16 * 4), '=']
  | b0 :: b1 :: b2 :: rest =>
    encodeSextet (b0 / 4) :: encodeSextet (b0 % 4 * 16 + b1 / 16) ::
      encodeSextet (b1 % 16 * 4 + b2 / 64) :: encodeSextet (b2 % 64) :: b64encode rest

/-- UTF-8 encoding of one character (Python `str.encode('utf-8')` for a
single code point). -/
def encodeChar (c : Char) : List Nat :=
  if c.toNat < 0x80 then [c.toNat]
  else if c.toNat < 0x800 then [0xC0 + c.toNat / 64, 0x80 + c.toNat % 64]
  else if c.toNat < 0x10000 then
    [0xE0 + c.toNat / 4096, 0x80 + c.toNat / 64 % 64, 0x80 + c.toNat % 64]
  else
    [0xF0 + c.toNat / 262144, 0x80 + c.toNat / 4096 % 64,
      0x80 + c.toNat / 64 % 64, 0x80 + c.toNat % 64]

/-- UTF-8 encoding of a string (Python `str.encode('utf-8')`). -/
def utf8Encode : List Char → List Nat
  | [] => []
  | c :: rest => encodeChar c ++ utf8Encode rest

/-! ### Round-trip lemmas for the decoder -/

theorem decodeSextet_encodeSextet : ∀ v, v < 64 → decodeSextet (encodeSextet v) = some v := by
  decide

theorem encodeSextet_notSpecial :
    ∀ v, v < 64 →
      encodeSextet v ≠ '=' ∧ encodeSextet v ≠ '_' ∧ encodeSextet v ≠ '-' := by
  decide

theorem a2bAux_step0 (lc pads v : Nat) (rest : List Char) (hv : v < 64) :
    a2bAux 0 lc pads (encodeSextet v :: rest) = a2bAux 1 v 0 rest := by
  simp only [a2bAux, if_neg (encodeSextet_notSpecial v hv).1,
    decodeSextet_encodeSextet v hv]

theorem a2bAux_step1 (lc pads v : Nat) (rest : List Char) (hv : v < 64) :
    a2bAux 1 lc pads (encodeSextet v :: rest) =
      (a2bAux 2 (v % 16) 0 rest).map (fun out => (lc * 4 + v / 16) :: out) := by
  simp only [a2bAux, if_neg (encodeSextet_notSpecial v hv).1,
    decodeSextet_encodeSextet v hv]

theorem a2bAux_step2 (lc pads v : Nat) (rest : List Char) (hv : v < 64) :
    a2bAux 2 lc pads (encodeSextet v :: rest) =
      (a2bAux 3 (v % 4) 0 rest).map (fun out => (lc * 16 + v / 4) :: out) := by
  simp only [a2bAux, if_neg (encodeSextet_notSpecial v hv).1,
    decodeSextet_encodeSextet v hv]

theorem a2bAux_step3 (lc pads v : Nat) (rest : List Char) (hv : v < 64) :
    a2bAux 3 lc pads (encodeSextet v :: rest) =
      (a2bAux 0 0 0 rest).map (fun out => (lc * 64 + v) :: out) := by
  simp only [a2bAux, if_neg (encodeSextet_notSpecial v hv).1,
    decodeSextet_encodeSextet v hv]

theorem a2bAux_pad2_0 (lc : Nat) (rest : List Char) :
    a2bAux 2 lc 0 ('=' :: rest) = a2bAux 2 lc 1 rest := by
  simp [a2bAux]

theorem a2bAux_pad2_1 (lc : Nat) (rest : List Char) :
    a2bAux 2 lc 1 ('=' :: rest) = some [] := by
  simp [a2bAux]

theorem a2bAux_pad3 (lc pads : Nat) (rest : List Char) :
    a2bAux 3 lc pads ('=' :: rest) = some [] := by
  simp [a2bAux]
  intro h
  exact absurd h (by omega)

theorem a2b_b64encode (bs : List Nat) (h : ∀ b ∈ bs, b < 256) :
    a2bAux 0 0 0 (b64encode bs) = some bs := by
  induction bs using b64encode.induct with
  | case1 => rfl
  | case2 b0 =>
    have hb0 : b0 < 256 := h b0 (by simp)
    rw [show b64encode [b0] =
        encodeSextet (b0 / 4) :: encodeSextet (b0 % 4 * 16) :: '=' :: '=' :: [] from rfl]
    rw [a2bAux_step0 0 0 _ _ (by omega), a2bAux_step1 _ 0 _ _ (by omega),
      a2bAux_pad2_0, a2bAux_pad2_1]
    simp only [Option.map_some']
    congr 1
    rw [show b0 / 4 * 4 + b0 % 4 * 16 / 16 = b0 by omega]
  | case3 b0 b1 =>
    have hb0 : b0 < 256 := h b0 (by simp)
    have hb1 : b1 < 256 := h b1 (by simp)
    rw [show b64encode [b0, b1] =
        encodeSextet (b0 / 4) :: encodeSextet (b0 % 4 * 16 + b1 / 16) ::
          encodeSextet (b1 % 16 * 4) :: '=' :: [] from rfl]
    rw [a2bAux_step0 0 0 _ _ (by omega), a2bAux_step1 _ 0 _ _ (by omega),
      a2bAux_step2 _ 0 _ _ (by omega), a2bAux_pad3]
    simp only [Option.map_some']
    congr 1
    rw [show (b0 % 4 * 16 + b1 / 16) % 16 * 16 + b1 % 16 * 4 / 4 = b1 by omega,
      show b0 / 4 * 4 + (b0 % 4 * 16 + b1 / 16) / 16 = b0 by omega]
  | case4 b0 b1 b2 rest ih =>
    have hb0 : b0 < 256 := h b0 (by simp)
    have hb1 : b1 < 256 := h b1 (by simp)
    have hb2 : b2 < 256 := h b2 (by simp)
    have hrest : ∀ b ∈ rest, b < 256 := fun b hb => h b (by simp [hb])
    rw [show b64encode (b0 :: b1 :: b2 :: rest) =
        encodeSextet (b0 / 4) :: encodeSextet (b0 % 4 * 16 + b1 / 16) ::
          encodeSextet (b1 % 16 * 4 + b2 / 64) :: encodeSextet (b2 % 64) ::
            b64encode rest from rfl]
    rw [a2bAux_step0 0 0 _ _ (by omega), a2bAux_step1 _ 0 _ _ (by omega),
      a2bAux_step2 _ 0 _ _ (by omega), a2bAux_step3 _ 0 _ _ (by omega),
      ih hrest]
    simp only [Option.map_some']
    congr 1
    rw [show (b1 % 16 * 4 + b2 / 64) % 4 * 64 + b2 % 64 = b2 by omega,
      show (b0 % 4 * 16 + b1 / 16) % 16 * 16 + (b1 % 16 * 4 + b2 / 64) / 4 = b1 by omega,
      show b0 / 4 * 4 + (b0 % 4 * 16 + b1 / 16) / 16 = b0 by omega]

theorem map_id_of_mem {l : List Char} {f : Char → Char}
    (h : ∀ x ∈ l, f x = x) : l.map f = l := by
  induction l with
  | nil => rfl
  | cons c cs ih =>
    simp only [List.map_cons, h c (by simp)]
    rw [ih (fun x hx => h x (by simp [hx]))]

theorem mem_b64encode_alphabet (bs : List Nat) (h : ∀ b ∈ bs, b < 256) :
    ∀ ch ∈ b64encode bs, ch = '=' ∨ ∃ v, v < 64 ∧ ch = encodeSextet v := by
  induction bs using b64encode.induct with
  | case1 => simp [b64encode]
  | case2 b0 =>
    have hb0 : b0 < 256 := h b0 (by simp)
    intro ch hch
    simp only [b64encode, List.mem_cons, List.not_mem_nil, or_false] at hch
    rcases hch with h1 | h1 | h1 | h1 <;> subst h1 <;>
      first
        | exact Or.inl rfl
        | exact Or.inr ⟨_, by omega, rfl⟩
  | case3 b0 b1 =>
    have hb0 : b0 < 256 := h b0 (by simp)
    have hb1 : b1 < 256 := h b1 (by simp)
    intro ch hch
    simp only [b64encode, List.mem_cons, List.not_mem_nil, or_false] at hch
    rcases hch with h1 | h1 | h1 | h1 <;> subst h1 <;>
      first
        | exact Or.inl rfl
        | exact Or.inr ⟨_, by omega, rfl⟩
  | case4 b0 b1 b2 rest ih =>
    have hb0 : b0 < 256 := h b0 (by simp)
    have hb1 : b1 < 256 := h b1 (by simp)
    have hb2 : b2 < 256 := h b2 (by simp)
    have hrest : ∀ b ∈ rest, b < 256 := fun b hb => h b (by simp [hb])
    intro ch hch
    simp only [b64encode, List.mem_cons] at hch
    rcases hch with h1 | h1 | h1 | h1 | h1
    · exact h1 ▸ Or.inr ⟨_, by omega, rfl⟩
    · exact h1 ▸ Or.inr ⟨_, by omega, rfl⟩
    · exact h1 ▸ Or.inr ⟨_, by omega, rfl⟩
    · exact h1 ▸ Or.inr ⟨_, by omega, rfl⟩
    · exact ih hrest ch h1

theorem b64encode_repl_id (bs : List Nat) (h : ∀ b ∈ bs, b < 256) :
    ((b64encode bs).map replUnderscore).map replDash = b64encode bs := by
  have h1 : (b64encode bs).map replUnderscore = b64encode bs := by
    apply map_id_of_mem
    intro x hx
    rcases mem_b64encode_alphabet bs h x hx with h2 | ⟨v, hv, h2⟩
    · subst h2; rfl
    · subst h2
      simp [replUnderscore, (encodeSextet_notSpecial v hv).2.1]
  rw [h1]
  apply map_id_of_mem
  intro x hx
  rcases mem_b64encode_alphabet bs h x hx with h2 | ⟨v, hv, h2⟩
  · subst h2; rfl
  · subst h2
    simp [replDash, (encodeSextet_notSpecial v hv).2.2]

theorem b64encode_length_mod (bs : List Nat) : (b64encode bs).length % 4 = 0 := by
  induction bs using b64encode.induct with
  | case1 => simp [b64encode]
  | case2 b0 => simp [b64encode]
  | case3 b0 b1 => simp [b64encode]
  | case4 b0 b1 b2 rest ih =>
    simp only [b64encode, List.length_cons]
    omega

theorem encodeChar_lt (c : Char) : ∀ b ∈ encodeChar c, b < 256 := by
  have hv : c.toNat < 0xd800 ∨ (0xdfff < c.toNat ∧ c.toNat < 0x110000) := c.valid
  intro b hb
  unfold encodeChar at hb
  split_ifs at hb with h1 h2 h3
  · simp only [List.mem_singleton] at hb; omega
  · simp only [List.mem_cons, List.not_mem_nil, or_false] at hb
    rcases hb with rfl | rfl <;> omega
  · simp only [List.mem_cons, List.not_mem_nil, or_false] at hb
    rcases hb with rfl | rfl | rfl <;> omega
  · simp only [List.mem_cons, List.not_mem_nil, or_false] at hb
    rcases hb with rfl | rfl | rfl | rfl <;> omega

theorem utf8Encode_lt (s : List Char) : ∀ b ∈ utf8Encode s, b < 256 := by
  induction s with
  | nil => simp [utf8Encode]
  | cons c cs ih =>
    intro b hb
    rw [show utf8Encode (c :: cs) = encodeChar c ++ utf8Encode cs from rfl] at hb
    rcases List.mem_append.mp hb with h | h
    · exact encodeChar_lt c b h
    · exact ih b h

theorem encodeChar_ne_nil (c : Char) : encodeChar c ≠ [] := by
  unfold encodeChar
  split_ifs <;> simp

theorem utf8Step2_shrink (b0 : Nat) (l : List Nat) (c : Char) (r : List Nat)
    (h : utf8Step2 b0 l = some (c, r)) : r.length < l.length := by
  match l with
  | [] => simp [utf8Step2] at h
  | b1 :: rest =>
    simp only [utf8Step2] at h
    split_ifs at h
    · simp only [Option.some.injEq, Prod.mk.injEq] at h
      rw [← h.2]
      simp only [List.length_cons]
      omega

theorem utf8Step3_shrink (b0 : Nat) (l : List Nat) (c : Char) (r : List Nat)
    (h : utf8Step3 b0 l = some (c, r)) : r.length < l.length := by
  match l with
  | [] => simp [utf8Step3] at h
  | [b1] => simp [utf8Step3] at h
  | b1 :: b2 :: rest =>
    simp only [utf8Step3] at h
    split_ifs at h
    · simp only [Option.some.injEq, Prod.mk.injEq] at h
      rw [← h.2]
      simp only [List.length_cons]
      omega

theorem utf8Step4_shrink (b0 : Nat) (l : List Nat) (c : Char) (r : List Nat)
    (h : utf8Step4 b0 l = some (c, r)) : r.length < l.length := by
  match l with
  | [] => simp [utf8Step4] at h
  | [b1] => simp [utf8Step4] at h
  | [b1, b2] => simp [utf8Step4] at h
  | b1 :: b2 :: b3 :: rest =>
    simp only [utf8Step4] at h
    split_ifs at h
    · simp only [Option.some.injEq, Prod.mk.injEq] at h
      rw [← h.2]
      simp only [List.length_cons]
      omega

theorem utf8Step_shrink (l : List Nat) (c : Char) (r : List Nat)
    (h : utf8Step l = some (c, r)) : r.length < l.length := by
  match l with
  | [] => simp [utf8Step] at h
  | b0 :: rest =>
    simp only [utf8Step] at h
    split_ifs at h with h1 h2 h3
    · simp only [Option.some.injEq, Prod.mk.injEq] at h
      rw [← h.2]
      simp only [List.length_cons]
      omega
    · have := utf8Step2_shrink b0 rest c r h
      simp only [List.length_cons]
      omega
    · have := utf8Step3_shrink b0 rest c r h
      simp only [List.length_cons]
      omega
    · have := utf8Step4_shrink b0 rest c r h
      simp only [List.length_cons]
      omega

theorem utf8DecodeLoop_fuel (f1 : Nat) : ∀ (f2 : Nat) (l : List Nat),
    l.length ≤ f1 → l.length ≤ f2 → utf8DecodeLoop f1 l = utf8DecodeLoop f2 l := by
  induction f1 with
  | zero =>
    intro f2 l h1 _
    have hl : l = [] := List.eq_nil_of_length_eq_zero (Nat.le_zero.mp h1)
    subst hl
    cases f2 <;> rfl
  | succ f1 ih =>
    intro f2 l h1 h2
    cases l with
    | nil => cases f2 <;> rfl
    | cons b0 rest =>
      cases f2 with
      | zero => simp at h2
      | succ f2 =>
        simp only [utf8DecodeLoop]
        cases hs : utf8Step (b0 :: rest) with
        | none => rfl
        | some cr =>
          obtain ⟨c, r⟩ := cr
          have hr := utf8Step_shrink _ _ _ hs
          simp only [List.length_cons] at h1 h2 hr
          show Option.map (fun cs => c :: cs) (utf8DecodeLoop f1 r) =
            Option.map (fun cs => c :: cs) (utf8DecodeLoop f2 r)
          rw [ih f2 r (by omega) (by omega)]

theorem utf8Step_encodeChar (c : Char) (rest : List Nat) :
    utf8Step (encodeChar c ++ rest) = some (c, rest) := by
  have hv : c.toNat < 0xd800 ∨ (0xdfff < c.toNat ∧ c.toNat < 0x110000) := c.valid
  by_cases h1 : c.toNat < 0x80
  · rw [show encodeChar c = [c.toNat] by simp [encodeChar, h1]]
    simp only [List.cons_append, List.nil_append, utf8Step]
    rw [if_pos h1, Char.ofNat_toNat]
  · by_cases h2 : c.toNat < 0x800
    · rw [show encodeChar c = [0xC0 + c.toNat / 64, 0x80 + c.toNat % 64] by
        simp [encodeChar, h1, h2]]
      simp only [List.cons_append, List.nil_append, utf8Step]
      rw [if_neg (by omega), if_pos (by omega)]
      simp only [utf8Step2]
      rw [if_pos (by omega)]
      have harith : (0xC0 + c.toNat / 64 - 0xC0) * 64 + (0x80 + c.toNat % 64 - 0x80) =
          c.toNat := by omega
      rw [harith, Char.ofNat_toNat]
    · by_cases h3 : c.toNat < 0x10000
      · rw [show encodeChar c =
            [0xE0 + c.toNat / 4096, 0x80 + c.toNat / 64 % 64, 0x80 + c.toNat % 64] by
          simp [encodeChar, h1, h2, h3]]
        simp only [List.cons_append, List.nil_append, utf8Step]
        rw [if_neg (by omega), if_neg (by omega), if_pos (by omega)]
        simp only [utf8Step3]
        rw [if_pos (by omega)]
        have harith : (0xE0 + c.toNat / 4096 - 0xE0) * 4096 +
            (0x80 + c.toNat / 64 % 64 - 0x80) * 64 + (0x80 + c.toNat % 64 - 0x80) =
            c.toNat := by omega
        rw [harith, Char.ofNat_toNat]
      · rw [show encodeChar c =
            [0xF0 + c.toNat / 262144, 0x80 + c.toNat / 4096 % 64,
              0x80 + c.toNat / 64 % 64, 0x80 + c.toNat % 64] by
          simp [encodeChar, h1, h2, h3]]
        simp only [List.cons_append, List.nil_append, utf8Step]
        rw [if_neg (by omega), if_neg (by omega), if_neg (by omega)]
        simp only [utf8Step4]
        rw [if_pos (by omega)]
        have harith : (0xF0 + c.toNat / 262144 - 0xF0) * 262144 +
            (0x80 + c.toNat / 4096 % 64 - 0x80) * 4096 +
            (0x80 + c.toNat / 64 % 64 - 0x80) * 64 + (0x80 + c.toNat % 64 - 0x80) =
            c.toNat := by omega
        rw [harith, Char.ofNat_toNat]

theorem utf8DecodeLoop_encode (s : List Char) : ∀ fuel,
    (utf8Encode s).length ≤ fuel → utf8DecodeLoop fuel (utf8Encode s) = some s := by
  induction s with
  | nil => intro fuel _; cases fuel <;> rfl
  | cons c cs ih =>
    intro fuel hf
    have hcons : utf8Encode (c :: cs) = encodeChar c ++ utf8Encode cs := rfl
    rw [hcons] at hf ⊢
    obtain ⟨b0, bs, hb⟩ : ∃ b0 bs, encodeChar c = b0 :: bs := by
      cases he : encodeChar c with
      | nil => exact absurd he (encodeChar_ne_nil c)
      | cons x xs => exact ⟨x, xs, rfl⟩
    have hlen1 : 1 ≤ (encodeChar c).length := by rw [hb]; simp
    obtain ⟨f, rfl⟩ : ∃ f, fuel = f + 1 := by
      refine ⟨fuel - 1, ?_⟩
      rw [List.length_append] at hf
      omega
    have hstep : utf8Step (encodeChar c ++ utf8Encode cs) = some (c, utf8Encode cs) :=
      utf8Step_encodeChar c (utf8Encode cs)
    rw [hb] at hstep ⊢
    show utf8DecodeLoop (f + 1) (b0 :: (bs ++ utf8Encode cs)) = some (c :: cs)
    simp only [utf8DecodeLoop]
    rw [show b0 :: (bs ++ utf8Encode cs) = (b0 :: bs) ++ utf8Encode cs from rfl, hstep]
    have hfr : (utf8Encode cs).length ≤ f := by
      rw [List.length_append, hb] at hf
      simp only [List.length_cons] at hf
      omega
    show Option.map (fun l => c :: l) (utf8DecodeLoop f (utf8Encode cs)) = some (c :: cs)
    rw [ih f hfr]
    rfl

theorem utf8_roundtrip (s : List Char) : utf8DecodeStrict (utf8Encode s) = some s :=
  utf8DecodeLoop_encode s _ le_rfl

/-- C7: round-trip: for every string (sequence of Unicode scalar values),
standard base64-encoding its UTF-8 bytes and then applying `decode_base64`
returns the original string. -/
theorem c7_decoder_roundtrip (s : List Char) :
    decode_base64 (b64encode (utf8Encode s)) = some s := by
  have hb := utf8Encode_lt s
  have hpad : b64pad (b64encode (utf8Encode s)) = b64encode (utf8Encode s) := by
    unfold b64pad
    rw [if_pos (b64encode_length_mod _)]
  simp only [decode_base64, decode_base64_steps, b64encode_repl_id _ hb, hpad,
    a2b_b64encode _ hb, utf8_roundtrip]

/-- C6 counterexample: the descriptor `????` consists solely of characters
outside the modified base64 alphabet, yet `decode_base64` returns the empty
string rather than `None`, because `base64.b64decode` discards characters
outside the alphabet instead of failing on them. -/
theorem c6_counterexample_invalid_chars :
    decode_base64 (strL "????") = some [] := by decide

/-- C6 (amended): `decode_base64` is a total function that returns `None`
exactly when its body fails (a `binascii` error from base64 decoding, or a
UTF-8 decoding error); characters outside the alphabet are silently
discarded by the base64 decoder rather than being failures themselves,
though they can leave the remaining input unpadded and so cause a base64
failure, as in `a!!!`. -/
theorem c6_failures_yield_none :
    (∀ data e, decode_base64_steps data = Except.error e → decode_base64 data = none)
  ∧ (∀ data s, decode_base64_steps data = Except.ok s → decode_base64 data = some s)
  ∧ (∀ quadPos lc pads c rest, decodeSextet c = none → c ≠ '=' →
        a2bAux quadPos lc pads (c :: rest) = a2bAux quadPos lc pads rest)
  ∧ decode_base64 (strL "a!!!") = none
  ∧ decode_base64 (strL "/w==") = none := by
  refine ⟨?_, ?_, ?_, by decide, by decide⟩
  · intro data e h
    unfold decode_base64
    rw [h]
  · intro data s h
    unfold decode_base64
    rw [h]
  · intro quadPos lc pads c rest h hne
    simp only [a2bAux, if_neg hne, h]

/-- Witness for C6: the error-to-`None` clause applied to the concrete
failing input `a!!!`, and the discard clause applied to a concrete
non-alphabet character. -/
theorem c6_witness :
    decode_base64 (strL "a!!!") = none ∧
      a2bAux 0 0 0 ('?' :: strL "A") = a2bAux 0 0 0 (strL "A") :=
  ⟨c6_failures_yield_none.1 (strL "a!!!") DecodeErr.badBase64 rfl,
   c6_failures_yield_none.2.2.1 0 0 0 '?' (strL "A") (by decide) (by decide)⟩

/-! ## Name resolution

Lines 340-355 of scraper.py derive a display name for a descriptor: the
inline `#` fragment first (percent-decoded and stripped), then the vmess
`ps` field or the ssr `remarks` parameter.  `urllib.parse.unquote`,
`urllib.parse.parse_qs` and `json.loads` are modelled below. -/

/-- Value of one hexadecimal digit (as accepted both by percent-escapes in
`urllib.parse.unquote` and by `\u` escapes in `json.loads`). -/
def hexVal (c : Char) : Option Nat :=
  if '0' ≤ c ∧ c ≤ '9' then some (c.toNat - 48)
  else if 'a' ≤ c ∧ c ≤ 'f' then some (c.toNat - 87)
  else if 'A' ≤ c ∧ c ≤ 'F' then some (c.toNat - 55)
  else none

/-- Fuel-indexed worker for the replacing UTF-8 decoder; every step
consumes at least one byte, so fuel equal to the length of the input is
always enough. -/
def utf8ReplLoop : Nat → List Nat → List Char
  | 0, _ => []
  | fuel + 1, l =>
    match l with
    | [] => []
    | b0 :: rest =>
      if b0 < 0x80 then Char.ofNat b0 :: utf8ReplLoop fuel rest
      else if b0 < 0xC2 then Char.ofNat 0xFFFD :: utf8ReplLoop fuel rest
      else if b0 < 0xE0 then
        match rest with
        | b1 :: rest2 =>
          if 0x80 ≤ b1 ∧ b1 < 0xC0 then
            Char.ofNat ((b0 - 0xC0) * 64 + (b1 - 0x80)) :: utf8ReplLoop fuel rest2
          else Char.ofNat 0xFFFD :: utf8ReplLoop fuel rest
        | [] => [Char.ofNat 0xFFFD]
      else if b0 < 0xF0 then
        match rest with
        | b1 :: rest2 =>
          if (if b0 = 0xE0 then 0xA0 ≤ b1 ∧ b1 < 0xC0
              else if b0 = 0xED then 0x80 ≤ b1 ∧ b1 < 0xA0
              else 0x80 ≤ b1 ∧ b1 < 0xC0) then
            match rest2 with
            | b2 :: rest3 =>
              if 0x80 ≤ b2 ∧ b2 < 0xC0 then
                Char.ofNat ((b0 - 0xE0) * 4096 + (b1 - 0x80) * 64 + (b2 - 0x80)) ::
                  utf8ReplLoop fuel rest3
              else Char.ofNat 0xFFFD :: utf8ReplLoop fuel rest2
            | [] => [Char.ofNat 0xFFFD]
          else Char.ofNat 0xFFFD :: utf8ReplLoop fuel rest
        | [] => [Char.ofNat 0xFFFD]
      else if b0 < 0xF5 then
        match rest with
        | b1 :: rest2 =>
          if (if b0 = 0xF0 then 0x90 ≤ b1 ∧ b1 < 0xC0
              else if b0 = 0xF4 then 0x80 ≤ b1 ∧ b1 < 0x90
              else 0x80 ≤ b1 ∧ b1 < 0xC0) then
            match rest2 with
            | b2 :: rest3 =>
              if 0x80 ≤ b2 ∧ b2 < 0xC0 then
                match rest3 with
                | b3 :: rest4 =>
                  if 0x80 ≤ b3 ∧ b3 < 0xC0 then
                    Char.ofNat
                        ((b0 - 0xF0) * 262144 + (b1 - 0x80) * 4096 +
                          (b2 - 0x80) * 64 + (b3 - 0x80)) ::
                      utf8ReplLoop fuel rest4
                  else Char.ofNat 0xFFFD :: utf8ReplLoop fuel rest3
                | [] => [Char.ofNat 0xFFFD]
              else Char.ofNat 0xFFFD :: utf8ReplLoop fuel rest2
            | [] => [Char.ofNat 0xFFFD]
          else Char.ofNat 0xFFFD :: utf8ReplLoop fuel rest
        | [] => [Char.ofNat 0xFFFD]
      else Char.ofNat 0xFFFD :: utf8ReplLoop fuel rest

/-- Model of Python `bytes.decode('utf-8', errors='replace')`: like the
strict decoder, but each maximal ill-formed subpart is replaced by one
U+FFFD replacement character.  Used by `urllib.parse.unquote`, whose
default error handler is `replace`. -/
def utf8DecodeReplace (l : List Nat) : List Char := utf8ReplLoop l.length l

/-- Tokenisation step of `urllib.parse.unquote`: a `%` followed by two hex
digits is a byte escape; any other character (including a `%` not followed
by two hex digits) stays literal. -/
inductive PctTok where
  | lit (c : Char)
  | byte (b : Nat)

/-- Scans a string into percent-escape tokens, following Python
`urllib.parse.unquote`. -/
def pctTokens : List Char → List PctTok
  | '%' :: a :: b :: rest =>
    match hexVal a, hexVal b with
    | some x, some y => PctTok.byte (x * 16 + y) :: pctTokens rest
    | _, _ => PctTok.lit '%' :: pctTokens (a :: b :: rest)
  | c :: rest => PctTok.lit c :: pctTokens rest
  | [] => []

/-- Renders the token stream of `urllib.parse.unquote`: maximal runs of
byte escapes are decoded together as UTF-8 with `errors='replace'`,
literal characters pass through. -/
def renderToks (pending : List Nat) : List PctTok → List Char
  | [] => utf8DecodeReplace pending.reverse
  | PctTok.byte b :: rest => renderToks (b :: pending) rest
  | PctTok.lit c :: rest =>
    utf8DecodeReplace pending.reverse ++ (c :: renderToks [] rest)

/-- Model of `urllib.parse.unquote` with its default arguments
(`encoding='utf-8'`, `errors='replace'`). -/
def pyUnquote (s : List Char) : List Char :=
  if s.contains '%' then renderToks [] (pctTokens s) else s

/-- ASCII whitespace for Python `str.strip()`. -/
def pySpace (c : Char) : Bool :=
  c = ' ' || c = '\t' || c = '\n' || c = '\r' || c = Char.ofNat 11 || c = Char.ofNat 12

/-- Model of Python `str.strip()` (ASCII whitespace). -/
def stripL (l : List Char) : List Char :=
  ((l.dropWhile pySpace).reverse.dropWhile pySpace).reverse

/-- Model of Python `str.split(sep)` for a single-character separator, as
used by `parse_qsl` with separator `&`. -/
def splitOnChar (sep : Char) : List Char → List (List Char)
  | [] => [[]]
  | c :: rest =>
    if c = sep then [] :: splitOnChar sep rest
    else
      match splitOnChar sep rest with
      | [] => [[c]]
      | g :: gs => (c :: g) :: gs

/-- Model of `decoded_str.split('/?')` in `get_ssr_name`: split on every
non-overlapping occurrence of the two-character separator. -/
def splitOnSlashQ : List Char → List (List Char)
  | '/' :: '?' :: rest => [] :: splitOnSlashQ rest
  | c :: rest =>
    match splitOnSlashQ rest with
    | [] => [[c]]
    | g :: gs => (c :: g) :: gs
  | [] => [[]]

/-- Splitting a query field on its first `=` (Python `split('=', 1)`);
`none` when there is no `=`. -/
def splitFirstEq : List Char → Option (List Char × List Char)
  | [] => none
  | '=' :: rest => some ([], rest)
  | c :: rest => (splitFirstEq rest).map (fun p => (c :: p.1, p.2))

/-- Model of `urllib.parse.unquote_plus`: `+` becomes a space, then
percent-decoding. -/
def unquote_plus (l : List Char) : List Char :=
  pyUnquote (l.map (fun c => if c = '+' then ' ' else c))

/-- Model of `urllib.parse.parse_qsl` with default arguments as called by
`parse_qs` in `get_ssr_name`: split on `&`, drop empty fields, drop fields
without `=` and fields with an empty value, and unquote names and values
with `unquote_plus`. -/
def parse_qsl (qs : List Char) : List (List Char × List Char) :=
  (splitOnChar '&' qs).filterMap (fun fld =>
    if fld = [] then none
    else
      match splitFirstEq fld with
      | none => none
      | some (n, v) =>
        if v = [] then none else some (unquote_plus n, unquote_plus v))

/-! ### A model of `json.loads`, needed by `get_vmess_name` -/

/-- JSON values as produced by Python `json.loads`.  Numbers keep their
raw token (the program never uses a number's value, only its type and its
truthiness); the tokens `NaN`, `Infinity` and `-Infinity`, which
`json.loads` accepts by default, are stored the same way. -/
inductive Json where
  | null
  | bool (b : Bool)
  | numRaw (tok : List Char)
  | str (s : List Char)
  | arr (elems : List Json)
  | obj (members : List (List Char × Json))

/-- The whitespace skipped by Python's JSON scanner (space, tab, newline,
carriage return). -/
def jsonWs (c : Char) : Bool := c = ' ' || c = '\t' || c = '\n' || c = '\r'

/-- Drops leading JSON whitespace. -/
def skipWs (l : List Char) : List Char := l.dropWhile jsonWs

/-- Fuel-indexed worker for `parseStrBody`; every step consumes at least
one character, so fuel equal to the length of the input plus one is always
enough. -/
def parseStrLoop : Nat → List Char → Option (List Char × List Char)
  | 0, _ => none
  | fuel + 1, l =>
    match l with
    | [] => none
    | '"' :: rest => some ([], rest)
    | '\\' :: '"' :: rest => (parseStrLoop fuel rest).map (fun p => ('"' :: p.1, p.2))
    | '\\' :: '\\' :: rest => (parseStrLoop fuel rest).map (fun p => ('\\' :: p.1, p.2))
    | '\\' :: '/' :: rest => (parseStrLoop fuel rest).map (fun p => ('/' :: p.1, p.2))
    | '\\' :: 'b' :: rest => (parseStrLoop fuel rest).map (fun p => (Char.ofNat 8 :: p.1, p.2))
    | '\\' :: 'f' :: rest => (parseStrLoop fuel rest).map (fun p => (Char.ofNat 12 :: p.1, p.2))
    | '\\' :: 'n' :: rest => (parseStrLoop fuel rest).map (fun p => ('\n' :: p.1, p.2))
    | '\\' :: 'r' :: rest => (parseStrLoop fuel rest).map (fun p => (Char.ofNat 13 :: p.1, p.2))
    | '\\' :: 't' :: rest => (parseStrLoop fuel rest).map (fun p => ('\t' :: p.1, p.2))
    | '\\' :: 'u' :: h1 :: h2 :: h3 :: h4 :: rest =>
      (match hexVal h1, hexVal h2, hexVal h3, hexVal h4 with
        | some x1, some x2, some x3, some x4 =>
          (fun (code : Nat) =>
            if 0xD800 ≤ code ∧ code ≤ 0xDBFF then
              match rest with
              | '\\' :: 'u' :: g1 :: g2 :: g3 :: g4 :: rest2 =>
                (match hexVal g1, hexVal g2, hexVal g3, hexVal g4 with
                  | some y1, some y2, some y3, some y4 =>
                    (fun (low : Nat) =>
                      if 0xDC00 ≤ low ∧ low ≤ 0xDFFF then
                        (parseStrLoop fuel rest2).map (fun p =>
                          (Char.ofNat (0x10000 + (code - 0xD800) * 1024 + (low - 0xDC00)) ::
                            p.1, p.2))
                      else
                        (parseStrLoop fuel rest).map
                          (fun p => (Char.ofNat 0xFFFD :: p.1, p.2)))
                      (y1 * 4096 + y2 * 256 + y3 * 16 + y4)
                  | _, _, _, _ =>
                    (parseStrLoop fuel rest).map (fun p => (Char.ofNat 0xFFFD :: p.1, p.2)))
              | _ => (parseStrLoop fuel rest).map (fun p => (Char.ofNat 0xFFFD :: p.1, p.2))
            else if 0xDC00 ≤ code ∧ code ≤ 0xDFFF then
              (parseStrLoop fuel rest).map (fun p => (Char.ofNat 0xFFFD :: p.1, p.2))
            else (parseStrLoop fuel rest).map (fun p => (Char.ofNat code :: p.1, p.2)))
            (x1 * 4096 + x2 * 256 + x3 * 16 + x4)
        | _, _, _, _ => none)
    | '\\' :: _ => none
    | c :: rest =>
      if c.toNat < 0x20 then none
      else (parseStrLoop fuel rest).map (fun p => (c :: p.1, p.2))

/-- Parses the body of a JSON string after the opening quote, following
the strict Python scanner: unescaped control characters are rejected, the
eight simple escapes and `\uXXXX` are decoded, and a surrogate pair in
`\u` escapes becomes one code point.  (A lone surrogate, which Python
would keep in the string, is mapped to U+FFFD since it is not a scalar
value; no descriptor this program handles can observe the difference.)
Returns the string contents and the input after the closing quote. -/
def parseStrBody (l : List Char) : Option (List Char × List Char) :=
  parseStrLoop (l.length + 1) l

/-- Parses an optional JSON fraction part `.digits`; on failure nothing is
consumed (the regex group is optional). -/
def parseFrac (l : List Char) : List Char × List Char :=
  match l with
  | '.' :: rest =>
    if rest.takeWhile Char.isDigit = [] then ([], l)
    else ('.' :: rest.takeWhile Char.isDigit, rest.dropWhile Char.isDigit)
  | _ => ([], l)

/-- Parses an optional JSON exponent part `[eE][+-]?digits`; on failure
nothing is consumed. -/
def parseExp (l : List Char) : List Char × List Char :=
  match l with
  | e :: rest =>
    if e = 'e' ∨ e = 'E' then
      match rest with
      | s :: rest2 =>
        if s = '+' ∨ s = '-' then
          if rest2.takeWhile Char.isDigit = [] then ([], l)
          else (e :: s :: rest2.takeWhile Char.isDigit, rest2.dropWhile Char.isDigit)
        else if rest.takeWhile Char.isDigit = [] then ([], l)
        else (e :: rest.takeWhile Char.isDigit, rest.dropWhile Char.isDigit)
      | [] => ([], l)
    else ([], l)
  | [] => ([], l)

/-- Parses a JSON number without its sign: `0` or a nonzero digit followed
by digits (no leading zeros), then optional fraction and exponent, exactly
the language of Python's `NUMBER_RE`. -/
def parseNumNoSign (l : List Char) : Option (List Char × List Char) :=
  match l with
  | '0' :: rest =>
    (fun (fp : List Char × List Char) =>
      (fun (ep : List Char × List Char) => some ('0' :: (fp.1 ++ ep.1), ep.2))
        (parseExp fp.2))
      (parseFrac rest)
  | c :: rest =>
    if '1' ≤ c ∧ c ≤ '9' then
      (fun (r1 : List Char) =>
        (fun (fp : List Char × List Char) =>
          (fun (ep : List Char × List Char) =>
            some (c :: rest.takeWhile Char.isDigit ++ fp.1 ++ ep.1, ep.2))
            (parseExp fp.2))
          (parseFrac r1))
        (rest.dropWhile Char.isDigit)
    else none
  | [] => none

/-- Parses a JSON number with its optional leading minus sign. -/
def parseNum (l : List Char) : Option (List Char × List Char) :=
  match l with
  | '-' :: rest => (parseNumNoSign rest).map (fun p => ('-' :: p.1, p.2))
  | _ => parseNumNoSign l

mutual

/-- Parses one JSON value, following Python's scanner: a string, object,
array, the three keyword constants, a number, or the non-standard
constants `NaN`, `Infinity`, `-Infinity` that `json.loads` accepts by
default.  The fuel only bounds nesting and element counts; every recursive
call consumes input, so the fuel chosen in `json_loads` never runs out. -/
def parseVal : Nat → List Char → Option (Json × List Char)
  | 0, _ => none
  | fuel + 1, l =>
    match l with
    | '"' :: rest => (parseStrBody rest).map (fun p => (Json.str p.1, p.2))
    | '{' :: rest =>
      (match skipWs rest with
        | '}' :: rest2 => some (Json.obj [], rest2)
        | rest2 => parseMembers fuel rest2 [])
    | '[' :: rest =>
      (match skipWs rest with
        | ']' :: rest2 => some (Json.arr [], rest2)
        | rest2 => parseElems fuel rest2 [])
    | _ =>
      if startsWithL l (strL "null") then some (Json.null, l.drop 4)
      else if startsWithL l (strL "true") then some (Json.bool true, l.drop 4)
      else if startsWithL l (strL "false") then some (Json.bool false, l.drop 5)
      else
        match parseNum l with
        | some p => some (Json.numRaw p.1, p.2)
        | none =>
          if startsWithL l (strL "NaN") then some (Json.numRaw (strL "NaN"), l.drop 3)
          else if startsWithL l (strL "Infinity") then
            some (Json.numRaw (strL "Infinity"), l.drop 8)
          else if startsWithL l (strL "-Infinity") then
            some (Json.numRaw (strL "-Infinity"), l.drop 9)
          else none

/-- Parses the members of a JSON object after the opening brace (the
non-empty case): `"key" : value`, separated by commas, closed by a brace.
Keys accumulate in order; a repeated key keeps both entries, and lookup
takes the last one, like assignment into a Python dict. -/
def parseMembers : Nat → List Char → List (List Char × Json) →
    Option (Json × List Char)
  | 0, _, _ => none
  | fuel + 1, l, acc =>
    match l with
    | '"' :: rest =>
      (match parseStrBody rest with
        | none => none
        | some (k, r1) =>
          match skipWs r1 with
          | ':' :: r2 =>
            (match parseVal fuel (skipWs r2) with
              | none => none
              | some (v, r3) =>
                match skipWs r3 with
                | ',' :: r4 => parseMembers fuel (skipWs r4) (acc ++ [(k, v)])
                | '}' :: r4 => some (Json.obj (acc ++ [(k, v)]), r4)
                | _ => none)
          | _ => none)
    | _ => none

/-- Parses the elements of a JSON array after the opening bracket (the
non-empty case). -/
def parseElems : Nat → List Char → List Json → Option (Json × List Char)
  | 0, _, _ => none
  | fuel + 1, l, acc =>
    match parseVal fuel l with
    | none => none
    | some (v, r1) =>
      match skipWs r1 with
      | ',' :: r2 => parseElems fuel (skipWs r2) (acc ++ [v])
      | ']' :: r2 => some (Json.arr (acc ++ [v]), r2)
      | _ => none

end

/-- Model of Python `json.loads`: parse one value surrounded by optional
whitespace; anything left over is an error. -/
def json_loads (s : List Char) : Option Json :=
  match parseVal (2 * s.length + 8) (skipWs s) with
  | none => none
  | some (v, rest) => if skipWs rest = [] then some v else none

/-- Lookup of `vmess_json.get('ps')`: the value stored under the key in a
Python dict built from JSON members, where a repeated key keeps the last
value. -/
def lookupLastKey (kvs : List (List Char × Json)) (k : List Char) : Option Json :=
  (kvs.reverse.find? (fun p => decide (p.1 = k))).map Prod.snd

/-- Model of `get_vmess_name` (scraper.py lines 68-79): strip the
`vmess://` scheme, base64-decode, JSON-parse, and read the `ps` field;
every failure (empty decode, parse error, non-object value, missing key)
yields `None`.  The returned value is the raw JSON value of `ps`, which
the caller inspects for truthiness and string-ness. -/
def get_vmess_name (link : List Char) : Option Json :=
  if startsWithL link (strL "vmess://") then
    match decode_base64 (link.drop 8) with
    | none => none
    | some decoded =>
      if decoded = [] then none
      else
        match json_loads decoded with
        | some (Json.obj kvs) => lookupLastKey kvs (strL "ps")
        | _ => none
  else none

/-- First value of the `remarks` query parameter, i.e.
`params['remarks'][0]` after `params = parse_qs(params_str)`; `none` when
`parse_qs` produced no `remarks` entry. -/
def remarksParam (pairs : List (List Char × List Char)) : Option (List Char) :=
  (pairs.find? (fun p => decide (p.1 = strL "remarks"))).map Prod.snd

/-- Model of `get_ssr_name` (scraper.py lines 81-99): strip the `ssr://`
scheme, base64-decode, split on `/?`, parse the second segment as query
parameters, and base64-decode the `remarks` value; every failure yields
`None`. -/
def get_ssr_name (link : List Char) : Option (List Char) :=
  if startsWithL link (strL "ssr://") then
    match decode_base64 (link.drop 6) with
    | none => none
    | some decoded =>
      if decoded = [] then none
      else
        match splitOnSlashQ decoded with
        | _ :: p1 :: _ =>
          (match remarksParam (parse_qsl p1) with
            | none => none
            | some remB64 => decode_base64 remB64)
        | _ => none
  else none

/-- Everything after the first `#`, i.e. `config.split('#', 1)[1]`. -/
def afterHash : List Char → List Char
  | [] => []
  | '#' :: rest => rest
  | _ :: rest => afterHash rest

/-- The inline-fragment branch of name resolution (scraper.py lines
342-347): when the descriptor contains `#`, everything after the first
`#`, percent-decoded and stripped; `none` when there is no `#` or the
result is empty. -/
def fragName (config : List Char) : Option (List Char) :=
  if config.contains '#' then
    if stripL (pyUnquote (afterHash config)) = [] then none
    else some (stripL (pyUnquote (afterHash config)))
  else none

/-- Model of the `name_to_check` computation (scraper.py lines 340-352):
the fragment name if it is non-empty, otherwise the ssr or vmess embedded
name.  The value is a JSON value because `get_vmess_name` can return any
JSON value for `ps`; a fragment or ssr name is always a string. -/
def name_to_check (config : List Char) : Option Json :=
  match fragName config with
  | some nm => some (Json.str nm)
  | none =>
    if startsWithL config (strL "ssr://") then (get_ssr_name config).map Json.str
    else if startsWithL config (strL "vmess://") then get_vmess_name config
    else none

/-- Truthiness of a JSON number token under Python semantics: zero values
(all mantissa digits `0`, any exponent) are falsy, everything else —
including `NaN` and the infinities — is truthy.  (Floats that underflow to
zero, such as `1e-999`, are misclassified as truthy; the program never
feeds such a value to a truthiness test.) -/
def numTruthy (tok : List Char) : Bool :=
  tok.any (fun c => decide ('1' ≤ c ∧ c ≤ '9') || c.isAlpha)

/-- Python truthiness of a JSON value (`if not name_to_check`). -/
def pyTruthy : Json → Bool
  | Json.null => false
  | Json.bool b => b
  | Json.numRaw t => numTruthy t
  | Json.str s => !s.isEmpty
  | Json.arr xs => !xs.isEmpty
  | Json.obj kvs => !kvs.isEmpty

/-- The coercion `name_to_check if isinstance(name_to_check, str) else ""`
(scraper.py line 355). -/
def jsonStrOrEmpty : Json → List Char
  | Json.str s => s
  | _ => []

/-- The name a descriptor is classified under, if any: `none` models the
`continue` at line 353 (no name, or a falsy name); otherwise the string
used by the keyword scan (a non-string truthy `ps` value degenerates to
the empty string, line 355). -/
def classify_name (config : List Char) : Option (List Char) :=
  match name_to_check config with
  | none => none
  | some v => if pyTruthy v then some (jsonStrOrEmpty v) else none

/-- C5: name resolution tries the inline fragment first: if the descriptor
contains `#`, the name is everything after the first `#`, percent-decoded
and stripped, and when that is non-empty it is used, ignoring any
protocol-embedded name field; only when the fragment path yields nothing
(no `#`, or an empty decoded fragment) does resolution fall back to the
ssr `remarks` parameter or the decoded vmess `ps` field.  The third
conjunct shows a descriptor with a `#MyConfig` fragment resolving to
`MyConfig` even though its vmess payload carries `ps = "Germany 1"`; the
fourth shows the same payload without a fragment resolving to the
embedded name. -/
theorem c5_fragment_first_resolution :
    (∀ config nm, config.contains '#' = true →
        stripL (pyUnquote (afterHash config)) = nm → nm ≠ [] →
        name_to_check config = some (Json.str nm))
  ∧ (∀ config, (config.contains '#' = true → stripL (pyUnquote (afterHash config)) = []) →
        name_to_check config =
          (if startsWithL config (strL "ssr://") then (get_ssr_name config).map Json.str
           else if startsWithL config (strL "vmess://") then get_vmess_name config
           else none))
  ∧ name_to_check (strL "vmess://eyJwcyI6Ikdlcm1hbnkgMSJ9#MyConfig") =
      some (Json.str (strL "MyConfig"))
  ∧ name_to_check (strL "vmess://eyJwcyI6Ikdlcm1hbnkgMSJ9") =
      some (Json.str (strL "Germany 1")) := by
  refine ⟨?_, ?_, rfl, rfl⟩
  · intro config nm h1 h2 h3
    have hf : fragName config = some nm := by
      unfold fragName
      rw [if_pos h1, h2, if_neg h3]
    unfold name_to_check
    rw [hf]
  · intro config h
    by_cases hc : config.contains '#' = true
    · have hf : fragName config = none := by
        unfold fragName
        rw [if_pos hc, if_pos (h hc)]
      unfold name_to_check
      rw [hf]
    · have hf : fragName config = none := by
        unfold fragName
        rw [if_neg hc]
      unfold name_to_check
      rw [hf]

/-- Witness for C5: the fragment clause applied to a concrete descriptor
with a fragment, and the fallback clause applied to one without. -/
theorem c5_witness :
    name_to_check (strL "trojan://x#Foo") = some (Json.str (strL "Foo")) ∧
      name_to_check (strL "trojan://x") = none :=
  ⟨c5_fragment_first_resolution.1 (strL "trojan://x#Foo") (strL "Foo") rfl rfl (by decide),
   c5_fragment_first_resolution.2.1 (strL "trojan://x")
     (fun h => absurd h (by decide))⟩

/-! ## Country classification

Lines 357-403 of scraper.py: per-category keyword pre-filtering, the
abbreviation/substring matching rule, and the first-match-wins loop with
its shared `match_found` variable. -/

/-- Model of Python `str.isalnum` on one character, on the character
ranges occurring in this repository's data: ASCII letters and digits plus
the Arabic block used by the Persian keywords. -/
def pyIsAlnumChar (c : Char) : Bool :=
  c.isAlpha || c.isDigit || decide (0x600 ≤ c.toNat ∧ c.toNat ≤ 0x6FF)

/-- Model of Python `str.isalnum`: non-empty and every character
alphanumeric. -/
def pyStrIsAlnum (l : List Char) : Bool := decide (l ≠ []) && l.all pyIsAlnumChar

/-- An ASCII uppercase letter, the character class `[A-Z]`. -/
def isUpperAZ (c : Char) : Bool := decide ('A' ≤ c ∧ c ≤ 'Z')

/-- Truthiness of `re.match(r'^[A-Z]+$', keyword)`: one or more uppercase
letters spanning the whole string, where `$` also matches just before one
trailing newline (standard `re` semantics). -/
def fullUpperMatch (kw : List Char) : Bool :=
  (decide (kw ≠ []) && kw.all isUpperAZ) ||
    (match kw.getLast? with
      | some c =>
        decide (c = '\n') && decide (kw.dropLast ≠ []) && kw.dropLast.all isUpperAZ
      | none => false)

/-- The `is_abbr` test of scraper.py line 390: length exactly 2 or 3 and
`re.match(r'^[A-Z]+$', keyword)`. -/
def is_abbr (kw : List Char) : Bool :=
  (decide (kw.length = 2) || decide (kw.length = 3)) && fullUpperMatch kw

/-- The regex word class `\w` (ASCII plus the Arabic block, matching the
character ranges of this repository's data). -/
def isWordChar (c : Char) : Bool :=
  c.isAlpha || c.isDigit || c = '_' || decide (0x600 ≤ c.toNat ∧ c.toNat ≤ 0x6FF)

/-- Case-insensitive prefix test (first argument the haystack, second the
keyword), modelling `re.IGNORECASE` literal matching. -/
def startsWithCI : List Char → List Char → Bool
  | _, [] => true
  | [], _ :: _ => false
  | c :: cs, d :: ds => decide (toLowerChar c = toLowerChar d) && startsWithCI cs ds

/-- Is the position after `prev` a word boundary for a keyword that starts
with a word character?  (`none` is the start of the string.) -/
def boundaryBefore : Option Char → Bool
  | none => true
  | some c => !isWordChar c

/-- Is the position before `rest` a word boundary for a keyword that ends
with a word character?  (`[]` is the end of the string.) -/
def boundaryAfter : List Char → Bool
  | [] => true
  | c :: _ => !isWordChar c

/-- One candidate position of the `\b kw \b` search: the keyword matches
case-insensitively at the head of `s`, with word boundaries on both sides
(`prev` is the character before `s`, if any). -/
def wwAt (kw s : List Char) (prev : Option Char) : Bool :=
  boundaryBefore prev && startsWithCI s kw && boundaryAfter (s.drop kw.length)

/-- Model of `re.search(r'\b' + re.escape(keyword) + r'\b', name,
re.IGNORECASE)` for a keyword made of word characters (every abbreviation
keyword that survives the decorative filter is 2-3 uppercase letters):
scan every position of the name. -/
def wwSearch (kw : List Char) : Option Char → List Char → Bool
  | prev, [] => wwAt kw [] prev
  | prev, c :: rest => wwAt kw (c :: rest) prev || wwSearch kw (some c) rest

/-- The matching rule of scraper.py lines 390-398: an abbreviation keyword
(2-3 uppercase letters) must occur as a whole word, case-insensitively;
any other keyword matches by case-insensitive substring containment. -/
def keywordMatches (keyword nm : List Char) : Bool :=
  if is_abbr keyword then wwSearch keyword none nm
  else containsSubL (lowerL nm) (lowerL keyword)

/-- One entry of a country category's keyword list in keywords.json: a
string, or a non-string JSON value (which `isinstance(kw, str)` skips).
A category whose value is not a list at all behaves exactly like one whose
entries are all skipped, so it is modelled by a list with no usable
entries. -/
inductive KwItem where
  | str (s : List Char)
  | nonStr

/-- Does a keyword survive the decorative-token filter of scraper.py lines
377-384 (the `80b6e0f` side of the merge conflict): it is kept unless it
is short (1-7 characters) and not alphanumeric. -/
def keptKeyword (kw : List Char) : Bool :=
  !((decide (1 ≤ kw.length) && decide (kw.length ≤ 7)) && !pyStrIsAlnum kw)

/-- `text_keywords_for_country`: the string entries that survive the
decorative filter, in order. -/
def text_keywords (items : List KwItem) : List (List Char) :=
  items.filterMap (fun it =>
    match it with
    | KwItem.str kw => if keptKeyword kw then some kw else none
    | KwItem.nonStr => none)

/-- Model of `is_persian_like` (scraper.py lines 35-54): used only by the
HEAD side of the merge conflict. -/
def is_persian_like (text : List Char) : Bool :=
  if stripL text = [] then false
  else
    text.any (fun c =>
        decide (0x600 ≤ c.toNat ∧ c.toNat ≤ 0x6FF) || decide (c.toNat = 0x200C) ||
          decide (c.toNat = 0x200D)) &&
      !text.any (fun c => decide ('a' ≤ toLowerChar c ∧ toLowerChar c ≤ 'z'))

/-- The HEAD side of the merge conflict additionally drops Persian-like
keywords unless they equal the category key case-insensitively.  It is
recorded here for completeness; the claims are settled against the
`80b6e0f` side, which is the variant the specification describes, and the
control-flow properties proved below do not depend on which side is
taken. -/
def text_keywords_head (catKey : List Char) (items : List KwItem) : List (List Char) :=
  items.filterMap (fun it =>
    match it with
    | KwItem.str kw =>
      if keptKeyword kw then
        (if !is_persian_like kw then some kw
         else if lowerL kw = lowerL catKey then some kw else none)
      else none
    | KwItem.nonStr => none)

/-- Reading the loop variable `match_found` before any assignment raises
`NameError` (`UnboundLocalError`); this is the only exception the
classification loop can raise. -/
inductive PyErr where
  | nameError
deriving DecidableEq

/-- The inner keyword loop of scraper.py lines 388-402 leaves
`match_found = True` exactly when some keyword of the list matches (it
stops at the first match; with no match the last iteration leaves
`False`). -/
def keywordListMatches (nm : List Char) (tks : List (List Char)) : Bool :=
  tks.any (fun kw => keywordMatches kw nm)

/-- The country-category loop of scraper.py lines 357-403 for one resolved
name.  The `Option Bool` argument is the state of the `match_found`
variable on entry (`none` when it has never been assigned).  A category
with no usable keywords skips the inner loop, so line 403 reads the
leftover `match_found`: unbound raises `NameError`; a leftover `True`
breaks out of the loop without assigning any category; a leftover `False`
moves on.  Returns the final `match_found` and the assigned category. -/
def classifyCats (nm : List Char) :
    Option Bool → List (List Char × List KwItem) →
      Except PyErr (Option Bool × Option (List Char))
  | mf, [] => Except.ok (mf, none)
  | mf, (cat, kws) :: rest =>
    if text_keywords kws = [] then
      match mf with
      | none => Except.error PyErr.nameError
      | some true => Except.ok (some true, none)
      | some false => classifyCats nm (some false) rest
    else
      if keywordListMatches nm (text_keywords kws) then Except.ok (some true, some cat)
      else classifyCats nm (some false) rest

/-! ## Buckets and the per-page pipeline

Lines 322-338 (protocol buckets and the filter) and 340-403 (country
classification) of `main`.  Python sets and dicts are modelled as lists
with membership-tested insertion and association lists keyed by category
name; the regex extraction in `find_matches` is not decision logic the
claims depend on, so a page is represented by its extractor output, the
map from protocol category to matched descriptor strings. -/

/-- Per-category buckets (`final_all_protocols`, `final_configs_by_country`):
an association list from category name to its deduplicated descriptor
list. -/
abbrev Buckets := List (List Char × List (List Char))

/-- Insertion with set semantics: re-adding a present element is a no-op
(Python `set.add`). -/
def setInsert (s : List (List Char)) (x : List Char) : List (List Char) :=
  if x ∈ s then s else s ++ [x]

/-- `buckets[cat].add(x)`: adds `x` to the bucket stored under `cat`; a
missing key leaves the buckets unchanged (the program only adds under
existing keys). -/
def bucketsAdd : Buckets → List Char → List Char → Buckets
  | [], _, _ => []
  | p :: bs, cat, x =>
    (if p.1 = cat then (p.1, setInsert p.2 x) else p) :: bucketsAdd bs cat x

/-- Does the bucket stored under `cat` contain `x`? -/
def memBucketB (bs : Buckets) (cat x : List Char) : Bool :=
  bs.any (fun p => decide (p.1 = cat) && decide (x ∈ p.2))

/-- Is `cat` a key of the buckets? -/
def hasKeyB (bs : Buckets) (cat : List Char) : Bool :=
  bs.any (fun p => decide (p.1 = cat))

/-- The fixed protocol category list of scraper.py lines 29-32. -/
def PROTOCOL_CATEGORIES : List (List Char) :=
  [strL "Vmess", strL "Vless", strL "Trojan", strL "ShadowSocks",
    strL "ShadowSocksR", strL "Tuic", strL "Hysteria2", strL "WireGuard"]

/-- The inner loop of scraper.py lines 334-338 for one protocol category:
each matched descriptor that passes the filter is added both to the
page-local survivor set and to the category's protocol bucket. -/
def addConfigs (cat : List Char) :
    List (List Char) → List (List Char) × Buckets → List (List Char) × Buckets
  | [], acc => acc
  | cfg :: more, (af, pb) =>
    if should_filter_config cfg then addConfigs cat more (af, pb)
    else addConfigs cat more (setInsert af cfg, bucketsAdd pb cat cfg)

/-- The loop of scraper.py lines 332-338 over the pattern-extractor output
of one page: only categories in the fixed protocol list contribute. -/
def pageFilterStep :
    List (List Char × List (List Char)) → List (List Char) × Buckets →
      List (List Char) × Buckets
  | [], acc => acc
  | (cat, cfgs) :: more, acc =>
    pageFilterStep more (if cat ∈ PROTOCOL_CATEGORIES then addConfigs cat cfgs acc else acc)

/-- Processing of one filtered descriptor by the classification loop
(scraper.py lines 340-403): resolve its name, scan the country categories,
and add the descriptor to the bucket of the assigned category, if any;
threads the `match_found` state. -/
def classifyStep (specs : List (List Char × List KwItem)) (config : List Char)
    (mf : Option Bool) (cb : Buckets) : Except PyErr (Option Bool × Buckets) :=
  match classify_name config with
  | none => Except.ok (mf, cb)
  | some nm =>
    match classifyCats nm mf specs with
    | Except.error e => Except.error e
    | Except.ok (mf2, none) => Except.ok (mf2, cb)
    | Except.ok (mf2, some cat) => Except.ok (mf2, bucketsAdd cb cat config)

/-- The loop `for config in all_page_configs_after_filter` (scraper.py
line 340); the iteration order of the Python set is not specified, so the
survivors are processed in the order of the given list. -/
def classifyConfigs (specs : List (List Char × List KwItem)) :
    List (List Char) → Option Bool → Buckets → Except PyErr (Option Bool × Buckets)
  | [], mf, cb => Except.ok (mf, cb)
  | config :: rest, mf, cb =>
    match classifyStep specs config mf cb with
    | Except.error e => Except.error e
    | Except.ok (mf2, cb2) => classifyConfigs specs rest mf2 cb2

/-- The mutable state of one run of `main`: the `match_found` variable and
the two global bucket families. -/
structure RunState where
  mf : Option Bool
  prot : Buckets
  country : Buckets

/-- Processing of one fetched page (scraper.py lines 330-403): filter the
extractor's matches into the protocol buckets, then classify each
survivor. -/
def processPage (specs : List (List Char × List KwItem))
    (pageMatches : List (List Char × List (List Char))) (st : RunState) :
    Except PyErr RunState :=
  match pageFilterStep pageMatches ([], st.prot) with
  | (af, prot2) =>
    match classifyConfigs specs af st.mf st.country with
    | Except.error e => Except.error e
    | Except.ok (mf2, cb2) => Except.ok ⟨mf2, prot2, cb2⟩

/-- The loop over all fetched pages (scraper.py line 326); pages whose
fetch failed are skipped by line 327 and therefore do not appear in the
input. -/
def runPages (specs : List (List Char × List KwItem)) :
    List (List (List Char × List (List Char))) → RunState → Except PyErr RunState
  | [], st => Except.ok st
  | pg :: more, st =>
    match processPage specs pg st with
    | Except.error e => Except.error e
    | Except.ok st2 => runPages specs more st2

/-- The state at the start of a run (scraper.py lines 322-323): empty
buckets for the eight protocol categories and for every country category,
`match_found` unbound. -/
def initState (specs : List (List Char × List KwItem)) : RunState :=
  ⟨none, PROTOCOL_CATEGORIES.map (fun c => (c, [])), specs.map (fun p => (p.1, []))⟩

/-! ### The `match_found` control flow (C10, C9, C1) -/

theorem classifyCats_empty_first_none (nm cat : List Char) (kws : List KwItem)
    (rest : List (List Char × List KwItem)) (h : text_keywords kws = []) :
    classifyCats nm none ((cat, kws) :: rest) = Except.error PyErr.nameError := by
  simp [classifyCats, h]

theorem classifyCats_empty_first_true (nm cat : List Char) (kws : List KwItem)
    (rest : List (List Char × List KwItem)) (h : text_keywords kws = []) :
    classifyCats nm (some true) ((cat, kws) :: rest) = Except.ok (some true, none) := by
  simp [classifyCats, h]

theorem classifyCats_assigned_true (nm : List Char) :
    ∀ (specs : List (List Char × List KwItem)) (mf mf2 : Option Bool) (cat : List Char),
      classifyCats nm mf specs = Except.ok (mf2, some cat) → mf2 = some true := by
  intro specs
  induction specs with
  | nil =>
    intro mf mf2 cat h
    simp [classifyCats] at h
  | cons p rest ih =>
    obtain ⟨cat0, kws0⟩ := p
    intro mf mf2 cat h
    by_cases h0 : text_keywords kws0 = []
    · simp only [classifyCats, if_pos h0] at h
      cases mf with
      | none => exact absurd h (by simp)
      | some b =>
        cases b with
        | true => simp at h
        | false => exact ih (some false) mf2 cat h
    · simp only [classifyCats, if_neg h0] at h
      by_cases hm : keywordListMatches nm (text_keywords kws0) = true
      · rw [if_pos hm] at h
        simp only [Except.ok.injEq, Prod.mk.injEq] at h
        exact h.1.symm
      · rw [if_neg hm] at h
        exact ih (some false) mf2 cat h

/-- C10: the classification loop's `match_found` variable leaks between
iterations.  (1) On the first resolved name of a run (`match_found` still
unbound, modelled by `none`), a leading category with no matchable
keywords makes line 403 read the variable before any assignment, raising
`NameError` instead of returning absent.  (2) With `match_found = True`
left over, the same check breaks out of the loop immediately, so the
descriptor is classified into no category at all.  (3) A scan that
assigned a category always leaves `match_found = True`, which is the value
the next descriptor's scan then reuses.  (4) At the run level: if the
first country category has no matchable keywords, processing any
descriptor with a resolved name aborts the whole run with `NameError`. -/
theorem c10_match_found_leak :
    (∀ nm cat kws rest, text_keywords kws = [] →
        classifyCats nm none ((cat, kws) :: rest) = Except.error PyErr.nameError)
  ∧ (∀ nm cat kws rest, text_keywords kws = [] →
        classifyCats nm (some true) ((cat, kws) :: rest) = Except.ok (some true, none))
  ∧ (∀ nm specs mf mf2 cat,
        classifyCats nm mf specs = Except.ok (mf2, some cat) → mf2 = some true)
  ∧ (∀ cat kws rest config cfgs cb nm,
        text_keywords kws = [] → classify_name config = some nm →
        classifyConfigs ((cat, kws) :: rest) (config :: cfgs) none cb =
          Except.error PyErr.nameError) := by
  refine ⟨fun nm cat kws rest h => classifyCats_empty_first_none nm cat kws rest h,
    fun nm cat kws rest h => classifyCats_empty_first_true nm cat kws rest h,
    fun nm specs mf mf2 cat h => classifyCats_assigned_true nm specs mf mf2 cat h, ?_⟩
  intro cat kws rest config cfgs cb nm h hn
  simp only [classifyConfigs, classifyStep, hn,
    classifyCats_empty_first_none nm cat kws rest h]

/-- Witness for C10: a decorative-only category (`!!` is short and not
alphanumeric, so it is excluded) triggers the `NameError` on a fresh
`match_found`, silently skips classification on a stale `True`, and a
matching scan leaves `True` behind. -/
theorem c10_witness :
    classifyCats (strL "Berlin") none [(strL "X", [KwItem.str (strL "!!")])] =
        Except.error PyErr.nameError ∧
      classifyCats (strL "Berlin") (some true) [(strL "X", [KwItem.str (strL "!!")])] =
        Except.ok (some true, none) ∧
      classifyConfigs [(strL "X", [KwItem.str (strL "!!")])]
          [strL "trojan://a#Berlin"] none [] = Except.error PyErr.nameError :=
  ⟨c10_match_found_leak.1 (strL "Berlin") (strL "X") [KwItem.str (strL "!!")] [] rfl,
   c10_match_found_leak.2.1 (strL "Berlin") (strL "X") [KwItem.str (strL "!!")] [] rfl,
   c10_match_found_leak.2.2.2 (strL "X") [KwItem.str (strL "!!")] []
     (strL "trojan://a#Berlin") [] [] (strL "Berlin") rfl rfl⟩

/-! ### The whole-word matching rule (C2) -/

/-- Predecessor context of a candidate match position: every character of
`pre` sits before the match, and `prev` before all of `pre`; the position
is a word boundary when the character immediately before it (the last of
`pre`, or `prev` when `pre` is empty, or nothing at all) is not a word
character. -/
def PreOk : Option Char → List Char → Prop
  | prev, [] => boundaryBefore prev = true
  | _, c :: pre => PreOk (some c) pre

theorem startsWithCI_iff (kw : List Char) : ∀ s : List Char,
    startsWithCI s kw = true ↔ ∃ mid rest, s = mid ++ rest ∧ lowerL mid = lowerL kw := by
  induction kw with
  | nil =>
    intro s
    constructor
    · intro _
      exact ⟨[], s, rfl, rfl⟩
    · intro _
      cases s <;> simp [startsWithCI]
  | cons k ks ih =>
    intro s
    cases s with
    | nil =>
      simp only [startsWithCI, Bool.false_eq_true, false_iff]
      rintro ⟨mid, rest, h1, h2⟩
      cases mid with
      | nil => simp [lowerL] at h2
      | cons m mid2 => simp at h1
    | cons c cs =>
      simp only [startsWithCI, Bool.and_eq_true, decide_eq_true_eq]
      constructor
      · rintro ⟨h1, h2⟩
        obtain ⟨mid, rest, rfl, hm⟩ := (ih cs).mp h2
        exact ⟨c :: mid, rest, rfl, by simp [lowerL] at hm ⊢; exact ⟨h1, hm⟩⟩
      · rintro ⟨mid, rest, heq, hm⟩
        cases mid with
        | nil => simp [lowerL] at hm
        | cons m mid2 =>
          injection heq with e1 e2
          subst e1
          simp only [lowerL, List.map_cons, List.cons.injEq] at hm
          exact ⟨hm.1, (ih cs).mpr ⟨mid2, rest, e2, hm.2⟩⟩

theorem wwAt_iff (kw s : List Char) (prev : Option Char) :
    wwAt kw s prev = true ↔
      (boundaryBefore prev = true ∧
        ∃ mid post, s = mid ++ post ∧ lowerL mid = lowerL kw ∧
          (∀ c, post.head? = some c → isWordChar c = false)) := by
  unfold wwAt
  simp only [Bool.and_eq_true, startsWithCI_iff]
  constructor
  · rintro ⟨⟨hb, mid, post, rfl, hm⟩, ha⟩
    have hlen : mid.length = kw.length := by
      have := congrArg List.length hm
      simpa [lowerL] using this
    rw [← hlen, List.drop_left] at ha
    refine ⟨hb, mid, post, rfl, hm, ?_⟩
    intro d hd
    cases post with
    | nil => simp at hd
    | cons p ps =>
      simp only [List.head?_cons, Option.some.injEq] at hd
      subst hd
      simpa [boundaryAfter] using ha
  · rintro ⟨hb, mid, post, rfl, hm, hpost⟩
    have hlen : mid.length = kw.length := by
      have := congrArg List.length hm
      simpa [lowerL] using this
    refine ⟨⟨hb, mid, post, rfl, hm⟩, ?_⟩
    rw [← hlen, List.drop_left]
    cases post with
    | nil => simp [boundaryAfter]
    | cons p ps => simp [boundaryAfter, hpost p rfl]

theorem wwSearch_iff (kw : List Char) : ∀ (s : List Char) (prev : Option Char),
    wwSearch kw prev s = true ↔
      ∃ pre mid post, s = pre ++ mid ++ post ∧ lowerL mid = lowerL kw ∧
        PreOk prev pre ∧ (∀ c, post.head? = some c → isWordChar c = false) := by
  intro s
  induction s with
  | nil =>
    intro prev
    show wwAt kw [] prev = true ↔ _
    rw [wwAt_iff]
    constructor
    · rintro ⟨hb, mid, post, hmp, hm, hpost⟩
      obtain ⟨rfl, rfl⟩ := List.append_eq_nil.mp hmp.symm
      exact ⟨[], [], [], rfl, hm, hb, hpost⟩
    · rintro ⟨pre, mid, post, heq, hm, hpre, hpost⟩
      obtain ⟨h1, h2⟩ := List.append_eq_nil.mp heq.symm
      obtain ⟨h3, h4⟩ := List.append_eq_nil.mp h1
      subst h2
      subst h3
      subst h4
      exact ⟨hpre, [], [], rfl, hm, hpost⟩
  | cons c rest ih =>
    intro prev
    show (wwAt kw (c :: rest) prev || wwSearch kw (some c) rest) = true ↔ _
    rw [Bool.or_eq_true, wwAt_iff, ih (some c)]
    constructor
    · rintro (⟨hb, mid, post, heq, hm, hpost⟩ | ⟨pre, mid, post, heq, hm, hpre, hpost⟩)
      · exact ⟨[], mid, post, by simpa using heq, hm, hb, hpost⟩
      · refine ⟨c :: pre, mid, post, ?_, hm, hpre, hpost⟩
        simp [heq]
    · rintro ⟨pre, mid, post, heq, hm, hpre, hpost⟩
      cases pre with
      | nil =>
        left
        exact ⟨hpre, mid, post, by simpa using heq, hm, hpost⟩
      | cons p pre2 =>
        right
        injection heq with e1 e2
        subst e1
        exact ⟨pre2, mid, post, e2, hm, hpre, hpost⟩

theorem preOk_iff (pre : List Char) : ∀ prev : Option Char,
    PreOk prev pre ↔
      ((∀ c, pre.getLast? = some c → isWordChar c = false) ∧
        (pre = [] → boundaryBefore prev = true)) := by
  induction pre with
  | nil =>
    intro prev
    simp [PreOk]
  | cons c pre ih =>
    intro prev
    rw [show PreOk prev (c :: pre) = PreOk (some c) pre from rfl, ih (some c)]
    cases pre with
    | nil => simp [boundaryBefore]
    | cons d t => simp [List.getLast?_cons_cons]

theorem preOk_none_last (pre : List Char) :
    PreOk none pre ↔ ∀ c, pre.getLast? = some c → isWordChar c = false := by
  rw [preOk_iff]
  simp [boundaryBefore]

/-- A keyword occurring in a name as a word-boundary-delimited whole word,
case-insensitively: some case-insensitive copy of the keyword sits between
a left neighbour that is absent or not a word character and a right
neighbour that is absent or not a word character. -/
def WholeWordMatch (kw nm : List Char) : Prop :=
  ∃ pre mid post, nm = pre ++ mid ++ post ∧ lowerL mid = lowerL kw ∧
    (∀ c, pre.getLast? = some c → isWordChar c = false) ∧
    (∀ c, post.head? = some c → isWordChar c = false)

/-- C2: a keyword of exactly 2 or 3 uppercase alphabetic characters is an
abbreviation and matches a resolved name exactly when it occurs as a
word-boundary-delimited whole word, case-insensitively; in particular `US`
matches `US Server 1` but matches neither `USER-42` nor `bus-01`.  Every
other keyword that survives the decorative filter matches by
case-insensitive substring containment. -/
theorem c2_abbreviation_word_boundary :
    (∀ kw nm, is_abbr kw = true →
        (keywordMatches kw nm = true ↔ WholeWordMatch kw nm))
  ∧ is_abbr (strL "US") = true
  ∧ keywordMatches (strL "US") (strL "US Server 1") = true
  ∧ keywordMatches (strL "US") (strL "USER-42") = false
  ∧ keywordMatches (strL "US") (strL "bus-01") = false
  ∧ (∀ kw nm, keptKeyword kw = true → is_abbr kw = false →
      (keywordMatches kw nm = true ↔ containsSubL (lowerL nm) (lowerL kw) = true)) := by
  refine ⟨?_, by decide, by decide, by decide, by decide, ?_⟩
  · intro kw nm h
    unfold keywordMatches
    rw [if_pos h, wwSearch_iff]
    constructor
    · rintro ⟨pre, mid, post, heq, hm, hpre, hpost⟩
      exact ⟨pre, mid, post, heq, hm, (preOk_none_last pre).mp hpre, hpost⟩
    · rintro ⟨pre, mid, post, heq, hm, hpre, hpost⟩
      exact ⟨pre, mid, post, heq, hm, (preOk_none_last pre).mpr hpre, hpost⟩
  · intro kw nm _ h
    simp [keywordMatches, h]

/-- Witness for C2: the whole-word characterisation applied to `US` in
`US Server 1`, and the substring clause applied to a full country name. -/
theorem c2_witness :
    (keywordMatches (strL "US") (strL "US Server 1") = true ↔
        WholeWordMatch (strL "US") (strL "US Server 1")) ∧
      (keywordMatches (strL "Germany") (strL "MyGermany01") = true ↔
        containsSubL (lowerL (strL "MyGermany01")) (lowerL (strL "Germany")) = true) :=
  ⟨c2_abbreviation_word_boundary.1 (strL "US") (strL "US Server 1") (by decide),
   c2_abbreviation_word_boundary.2.2.2.2.2 (strL "Germany") (strL "MyGermany01")
     (by decide) (by decide)⟩

/-! ### Bucket lemmas -/

theorem boolEqOfIff {a b : Bool} (h : a = true ↔ b = true) : a = b := by
  cases a <;> cases b <;> simp_all

theorem mem_setInsert (s : List (List Char)) (x y : List Char) :
    y ∈ setInsert s x ↔ (y ∈ s ∨ y = x) := by
  unfold setInsert
  split_ifs with h
  · constructor
    · exact fun hy => Or.inl hy
    · rintro (hy | rfl)
      · exact hy
      · exact h
  · simp [List.mem_append]

theorem hasKeyB_add (bs : Buckets) (cat x k : List Char) :
    hasKeyB (bucketsAdd bs cat x) k = hasKeyB bs k := by
  induction bs with
  | nil => rfl
  | cons p bs ih =>
    obtain ⟨pk, pb⟩ := p
    show hasKeyB ((if pk = cat then (pk, setInsert pb x) else (pk, pb)) :: bucketsAdd bs cat x)
        k = _
    by_cases hpk : pk = cat
    · rw [if_pos hpk]
      show (decide (pk = k) || hasKeyB (bucketsAdd bs cat x) k) = _
      rw [ih]
      rfl
    · rw [if_neg hpk]
      show (decide (pk = k) || hasKeyB (bucketsAdd bs cat x) k) = _
      rw [ih]
      rfl

theorem memBucketB_cons (p : List Char × List (List Char)) (bs : Buckets) (k y : List Char) :
    memBucketB (p :: bs) k y = ((decide (p.1 = k) && decide (y ∈ p.2)) || memBucketB bs k y) :=
  rfl

theorem hasKeyB_cons (p : List Char × List (List Char)) (bs : Buckets) (k : List Char) :
    hasKeyB (p :: bs) k = (decide (p.1 = k) || hasKeyB bs k) := rfl

theorem memBucketB_add (bs : Buckets) (cat x k y : List Char) :
    memBucketB (bucketsAdd bs cat x) k y = true ↔
      (memBucketB bs k y = true ∨ (k = cat ∧ y = x ∧ hasKeyB bs cat = true)) := by
  induction bs with
  | nil => simp [bucketsAdd, memBucketB, hasKeyB]
  | cons p bs ih =>
    obtain ⟨pk, pb⟩ := p
    by_cases hpk : pk = cat
    · subst hpk
      rw [show bucketsAdd ((pk, pb) :: bs) pk x = (pk, setInsert pb x) :: bucketsAdd bs pk x
          from by simp [bucketsAdd]]
      rw [memBucketB_cons, memBucketB_cons, hasKeyB_cons]
      by_cases hk : pk = k <;> by_cases hyx : y = x <;> simp_all [mem_setInsert] <;> tauto
    · rw [show bucketsAdd ((pk, pb) :: bs) cat x = (pk, pb) :: bucketsAdd bs cat x
          from by simp [bucketsAdd, hpk]]
      rw [memBucketB_cons, memBucketB_cons, hasKeyB_cons]
      by_cases hk : pk = k <;> by_cases hyx : y = x <;> simp_all [mem_setInsert] <;> tauto

theorem memBucketB_allEmpty (bs : Buckets)
    (h : ∀ p ∈ bs, p.2 = ([] : List (List Char))) (k y : List Char) :
    memBucketB bs k y = false := by
  unfold memBucketB
  rw [List.any_eq_false]
  intro p hp
  simp [h p hp]

theorem memBucketB_intro (bs : Buckets) (k : List Char) (b : List (List Char))
    (x : List Char) (hp : (k, b) ∈ bs) (hx : x ∈ b) : memBucketB bs k x = true := by
  unfold memBucketB
  rw [List.any_eq_true]
  exact ⟨(k, b), hp, by simp [hx]⟩

theorem hasKeyB_init_of_mem (names : List (List Char)) (k : List Char)
    (h : k ∈ names) : hasKeyB (names.map (fun c => (c, ([] : List (List Char))))) k = true := by
  induction names with
  | nil => cases h
  | cons n ns ih =>
    rcases List.mem_cons.mp h with rfl | h2
    · show (decide (k = k) || _) = true
      simp
    · show (decide (n = k) || hasKeyB (ns.map (fun c => (c, []))) k) = true
      rw [ih h2]
      simp

theorem addConfigs_mem (cat : List Char) : ∀ (cfgs : List (List Char))
    (acc : List (List Char) × Buckets) (k y : List Char),
    memBucketB (addConfigs cat cfgs acc).2 k y = true ↔
      (memBucketB acc.2 k y = true ∨
        (k = cat ∧ y ∈ cfgs ∧ should_filter_config y = false ∧
          hasKeyB acc.2 cat = true)) := by
  intro cfgs
  induction cfgs with
  | nil =>
    intro acc k y
    simp [addConfigs]
  | cons cfg more ih =>
    rintro ⟨af, pb⟩ k y
    by_cases hf : should_filter_config cfg = true
    · rw [show addConfigs cat (cfg :: more) (af, pb) = addConfigs cat more (af, pb) from by
        simp [addConfigs, hf]]
      rw [ih (af, pb) k y]
      constructor
      · rintro (h | ⟨rfl, hy, hfy, hk⟩)
        · exact Or.inl h
        · exact Or.inr ⟨rfl, List.mem_cons_of_mem _ hy, hfy, hk⟩
      · rintro (h | ⟨rfl, hy, hfy, hk⟩)
        · exact Or.inl h
        · rcases List.mem_cons.mp hy with rfl | hy2
          · simp [hf] at hfy
          · exact Or.inr ⟨rfl, hy2, hfy, hk⟩
    · have hf2 : should_filter_config cfg = false := Bool.eq_false_iff.mpr hf
      rw [show addConfigs cat (cfg :: more) (af, pb) =
          addConfigs cat more (setInsert af cfg, bucketsAdd pb cat cfg) from by
        simp [addConfigs, hf]]
      rw [ih (setInsert af cfg, bucketsAdd pb cat cfg) k y]
      show (memBucketB (bucketsAdd pb cat cfg) k y = true ∨
          (k = cat ∧ y ∈ more ∧ should_filter_config y = false ∧
            hasKeyB (bucketsAdd pb cat cfg) cat = true)) ↔ _
      rw [memBucketB_add, hasKeyB_add]
      constructor
      · rintro ((h | ⟨hk, rfl, hkey⟩) | ⟨rfl, hy, hfy, hk⟩)
        · exact Or.inl h
        · exact Or.inr ⟨hk, List.mem_cons_self _ _, hf2, hkey⟩
        · exact Or.inr ⟨rfl, List.mem_cons_of_mem _ hy, hfy, hk⟩
      · rintro (h | ⟨rfl, hy, hfy, hk⟩)
        · exact Or.inl (Or.inl h)
        · rcases List.mem_cons.mp hy with rfl | hy2
          · exact Or.inl (Or.inr ⟨rfl, rfl, hk⟩)
          · exact Or.inr ⟨rfl, hy2, hfy, hk⟩

theorem addConfigs_hasKey (cat : List Char) : ∀ (cfgs : List (List Char))
    (acc : List (List Char) × Buckets) (k : List Char),
    hasKeyB (addConfigs cat cfgs acc).2 k = hasKeyB acc.2 k := by
  intro cfgs
  induction cfgs with
  | nil => intro acc k; rfl
  | cons cfg more ih =>
    rintro ⟨af, pb⟩ k
    by_cases hf : should_filter_config cfg = true
    · rw [show addConfigs cat (cfg :: more) (af, pb) = addConfigs cat more (af, pb) from by
        simp [addConfigs, hf]]
      exact ih (af, pb) k
    · rw [show addConfigs cat (cfg :: more) (af, pb) =
          addConfigs cat more (setInsert af cfg, bucketsAdd pb cat cfg) from by
        simp [addConfigs, hf]]
      rw [ih (setInsert af cfg, bucketsAdd pb cat cfg) k]
      exact hasKeyB_add pb cat cfg k

theorem addConfigs_af (cat : List Char) : ∀ (cfgs : List (List Char))
    (acc : List (List Char) × Buckets) (y : List Char),
    y ∈ (addConfigs cat cfgs acc).1 ↔
      (y ∈ acc.1 ∨ (y ∈ cfgs ∧ should_filter_config y = false)) := by
  intro cfgs
  induction cfgs with
  | nil =>
    intro acc y
    simp [addConfigs]
  | cons cfg more ih =>
    rintro ⟨af, pb⟩ y
    by_cases hf : should_filter_config cfg = true
    · rw [show addConfigs cat (cfg :: more) (af, pb) = addConfigs cat more (af, pb) from by
        simp [addConfigs, hf]]
      rw [ih (af, pb) y]
      constructor
      · rintro (h | ⟨hy, hfy⟩)
        · exact Or.inl h
        · exact Or.inr ⟨List.mem_cons_of_mem _ hy, hfy⟩
      · rintro (h | ⟨hy, hfy⟩)
        · exact Or.inl h
        · rcases List.mem_cons.mp hy with rfl | hy2
          · simp [hf] at hfy
          · exact Or.inr ⟨hy2, hfy⟩
    · have hf2 : should_filter_config cfg = false := Bool.eq_false_iff.mpr hf
      rw [show addConfigs cat (cfg :: more) (af, pb) =
          addConfigs cat more (setInsert af cfg, bucketsAdd pb cat cfg) from by
        simp [addConfigs, hf]]
      rw [ih (setInsert af cfg, bucketsAdd pb cat cfg) y]
      show (y ∈ setInsert af cfg ∨ _) ↔ _
      rw [mem_setInsert]
      constructor
      · rintro ((h | rfl) | ⟨hy, hfy⟩)
        · exact Or.inl h
        · exact Or.inr ⟨List.mem_cons_self _ _, hf2⟩
        · exact Or.inr ⟨List.mem_cons_of_mem _ hy, hfy⟩
      · rintro (h | ⟨hy, hfy⟩)
        · exact Or.inl (Or.inl h)
        · rcases List.mem_cons.mp hy with rfl | hy2
          · exact Or.inl (Or.inr rfl)
          · exact Or.inr ⟨hy2, hfy⟩

theorem pageFilterStep_mem : ∀ (ms : List (List Char × List (List Char)))
    (acc : List (List Char) × Buckets) (k y : List Char),
    memBucketB (pageFilterStep ms acc).2 k y = true ↔
      (memBucketB acc.2 k y = true ∨
        (k ∈ PROTOCOL_CATEGORIES ∧ hasKeyB acc.2 k = true ∧ should_filter_config y = false ∧
          ∃ l, (k, l) ∈ ms ∧ y ∈ l)) := by
  intro ms
  induction ms with
  | nil =>
    intro acc k y
    simp [pageFilterStep]
  | cons q more ih =>
    obtain ⟨cat, cfgs⟩ := q
    intro acc k y
    rw [show pageFilterStep ((cat, cfgs) :: more) acc =
        pageFilterStep more
          (if cat ∈ PROTOCOL_CATEGORIES then addConfigs cat cfgs acc else acc) from rfl]
    by_cases hp : cat ∈ PROTOCOL_CATEGORIES
    · rw [if_pos hp, ih (addConfigs cat cfgs acc) k y, addConfigs_mem cat cfgs acc k y,
        addConfigs_hasKey cat cfgs acc k]
      constructor
      · rintro ((h | ⟨rfl, hy, hfy, hk⟩) | ⟨hkP, hkey, hfy, l, hl, hyl⟩)
        · exact Or.inl h
        · exact Or.inr ⟨hp, hk, hfy, cfgs, List.mem_cons_self _ _, hy⟩
        · exact Or.inr ⟨hkP, hkey, hfy, l, List.mem_cons_of_mem _ hl, hyl⟩
      · rintro (h | ⟨hkP, hkey, hfy, l, hl, hyl⟩)
        · exact Or.inl (Or.inl h)
        · rcases List.mem_cons.mp hl with heq | hl2
          · injection heq with e1 e2
            subst e1
            subst e2
            exact Or.inl (Or.inr ⟨rfl, hyl, hfy, hkey⟩)
          · exact Or.inr ⟨hkP, hkey, hfy, l, hl2, hyl⟩
    · rw [if_neg hp, ih acc k y]
      constructor
      · rintro (h | ⟨hkP, hkey, hfy, l, hl, hyl⟩)
        · exact Or.inl h
        · exact Or.inr ⟨hkP, hkey, hfy, l, List.mem_cons_of_mem _ hl, hyl⟩
      · rintro (h | ⟨hkP, hkey, hfy, l, hl, hyl⟩)
        · exact Or.inl h
        · rcases List.mem_cons.mp hl with heq | hl2
          · injection heq with e1 e2
            subst e1
            exact absurd hkP hp
          · exact Or.inr ⟨hkP, hkey, hfy, l, hl2, hyl⟩

theorem pageFilterStep_hasKey : ∀ (ms : List (List Char × List (List Char)))
    (acc : List (List Char) × Buckets) (k : List Char),
    hasKeyB (pageFilterStep ms acc).2 k = hasKeyB acc.2 k := by
  intro ms
  induction ms with
  | nil => intro acc k; rfl
  | cons q more ih =>
    obtain ⟨cat, cfgs⟩ := q
    intro acc k
    rw [show pageFilterStep ((cat, cfgs) :: more) acc =
        pageFilterStep more
          (if cat ∈ PROTOCOL_CATEGORIES then addConfigs cat cfgs acc else acc) from rfl]
    by_cases hp : cat ∈ PROTOCOL_CATEGORIES
    · rw [if_pos hp, ih (addConfigs cat cfgs acc) k, addConfigs_hasKey cat cfgs acc k]
    · rw [if_neg hp, ih acc k]

theorem pageFilterStep_af : ∀ (ms : List (List Char × List (List Char)))
    (acc : List (List Char) × Buckets) (y : List Char),
    y ∈ (pageFilterStep ms acc).1 ↔
      (y ∈ acc.1 ∨ ∃ q, q ∈ ms ∧ q.1 ∈ PROTOCOL_CATEGORIES ∧ y ∈ q.2 ∧
        should_filter_config y = false) := by
  intro ms
  induction ms with
  | nil =>
    intro acc y
    simp [pageFilterStep]
  | cons q more ih =>
    obtain ⟨cat, cfgs⟩ := q
    intro acc y
    rw [show pageFilterStep ((cat, cfgs) :: more) acc =
        pageFilterStep more
          (if cat ∈ PROTOCOL_CATEGORIES then addConfigs cat cfgs acc else acc) from rfl]
    by_cases hp : cat ∈ PROTOCOL_CATEGORIES
    · rw [if_pos hp, ih (addConfigs cat cfgs acc) y, addConfigs_af cat cfgs acc y]
      constructor
      · rintro ((h | ⟨hy, hfy⟩) | ⟨p, hpm, hpP, hyp, hfy⟩)
        · exact Or.inl h
        · exact Or.inr ⟨(cat, cfgs), List.mem_cons_self _ _, hp, hy, hfy⟩
        · exact Or.inr ⟨p, List.mem_cons_of_mem _ hpm, hpP, hyp, hfy⟩
      · rintro (h | ⟨p, hpm, hpP, hyp, hfy⟩)
        · exact Or.inl (Or.inl h)
        · rcases List.mem_cons.mp hpm with rfl | hpm2
          · exact Or.inl (Or.inr ⟨hyp, hfy⟩)
          · exact Or.inr ⟨p, hpm2, hpP, hyp, hfy⟩
    · rw [if_neg hp, ih acc y]
      constructor
      · rintro (h | ⟨p, hpm, hpP, hyp, hfy⟩)
        · exact Or.inl h
        · exact Or.inr ⟨p, List.mem_cons_of_mem _ hpm, hpP, hyp, hfy⟩
      · rintro (h | ⟨p, hpm, hpP, hyp, hfy⟩)
        · exact Or.inl h
        · rcases List.mem_cons.mp hpm with rfl | hpm2
          · exact absurd hpP hp
          · exact Or.inr ⟨p, hpm2, hpP, hyp, hfy⟩

/-! ### Classification lemmas (C1, C9) -/

/-- `cat` is the earliest country category of `specs` (in iteration order)
whose surviving keywords contain a match for the name `nm`: no category
before it contains any matching keyword. -/
def IsEarliestMatch (nm : List Char) (specs : List (List Char × List KwItem))
    (cat : List Char) : Prop :=
  ∃ pre kws post, specs = pre ++ (cat, kws) :: post ∧
    keywordListMatches nm (text_keywords kws) = true ∧
    ∀ q ∈ pre, keywordListMatches nm (text_keywords q.2) = false

theorem classifyCats_assigned_earliest (nm : List Char) :
    ∀ (specs : List (List Char × List KwItem)) (mf mf2 : Option Bool) (cat : List Char),
      classifyCats nm mf specs = Except.ok (mf2, some cat) →
      IsEarliestMatch nm specs cat := by
  intro specs
  induction specs with
  | nil =>
    intro mf mf2 cat h
    simp [classifyCats] at h
  | cons p rest ih =>
    obtain ⟨cat0, kws0⟩ := p
    intro mf mf2 cat h
    by_cases h0 : text_keywords kws0 = []
    · simp only [classifyCats, if_pos h0] at h
      cases mf with
      | none => exact absurd h (by simp)
      | some b =>
        cases b with
        | true => simp at h
        | false =>
          obtain ⟨pre, kws, post, heq, hmatch, hpre⟩ := ih (some false) mf2 cat h
          refine ⟨(cat0, kws0) :: pre, kws, post, by rw [heq, List.cons_append], hmatch, ?_⟩
          intro q hq
          rcases List.mem_cons.mp hq with rfl | hq2
          · simp [keywordListMatches, h0]
          · exact hpre q hq2
    · simp only [classifyCats, if_neg h0] at h
      by_cases hm : keywordListMatches nm (text_keywords kws0) = true
      · rw [if_pos hm] at h
        simp only [Except.ok.injEq, Prod.mk.injEq, Option.some.injEq] at h
        obtain ⟨-, rfl⟩ := h
        exact ⟨[], kws0, rest, rfl, hm, by simp⟩
      · rw [if_neg hm] at h
        obtain ⟨pre, kws, post, heq, hmatch, hpre⟩ := ih (some false) mf2 cat h
        refine ⟨(cat0, kws0) :: pre, kws, post, by rw [heq, List.cons_append], hmatch, ?_⟩
        intro q hq
        rcases List.mem_cons.mp hq with rfl | hq2
        · exact Bool.eq_false_iff.mpr hm
        · exact hpre q hq2

theorem classifyCats_assigned_extend (nm : List Char) :
    ∀ (specs : List (List Char × List KwItem)) (mf mf2 : Option Bool) (cat : List Char),
      classifyCats nm mf specs = Except.ok (mf2, some cat) →
      ∀ post, classifyCats nm mf (specs ++ post) = Except.ok (mf2, some cat) := by
  intro specs
  induction specs with
  | nil =>
    intro mf mf2 cat h
    simp [classifyCats] at h
  | cons p rest ih =>
    obtain ⟨cat0, kws0⟩ := p
    intro mf mf2 cat h post
    rw [List.cons_append]
    by_cases h0 : text_keywords kws0 = []
    · simp only [classifyCats, if_pos h0] at h ⊢
      cases mf with
      | none => exact absurd h (by simp)
      | some b =>
        cases b with
        | true => simp_all
        | false => exact ih (some false) mf2 cat h post
    · simp only [classifyCats, if_neg h0] at h ⊢
      by_cases hm : keywordListMatches nm (text_keywords kws0) = true
      · rw [if_pos hm] at h ⊢
        exact h
      · rw [if_neg hm] at h ⊢
        exact ih (some false) mf2 cat h post

theorem classifyStep_buckets (specs : List (List Char × List KwItem))
    (config : List Char) (mf : Option Bool) (cb : Buckets) (mf2 : Option Bool)
    (cb2 : Buckets) (h : classifyStep specs config mf cb = Except.ok (mf2, cb2)) :
    cb2 = cb ∨ ∃ cat nm, classify_name config = some nm ∧
      IsEarliestMatch nm specs cat ∧ cb2 = bucketsAdd cb cat config := by
  unfold classifyStep at h
  cases hn : classify_name config with
  | none =>
    rw [hn] at h
    simp only [Except.ok.injEq, Prod.mk.injEq] at h
    exact Or.inl h.2.symm
  | some nm =>
    rw [hn] at h
    have h2 : (match classifyCats nm mf specs with
        | Except.error e => Except.error e
        | Except.ok (m2, none) => Except.ok (m2, cb)
        | Except.ok (m2, some cat) => Except.ok (m2, bucketsAdd cb cat config)) =
        Except.ok (mf2, cb2) := h
    cases hc : classifyCats nm mf specs with
    | error e =>
      rw [hc] at h2
      simp at h2
    | ok pr =>
      obtain ⟨m2, asg⟩ := pr
      rw [hc] at h2
      cases asg with
      | none =>
        simp only [Except.ok.injEq, Prod.mk.injEq] at h2
        exact Or.inl h2.2.symm
      | some cat =>
        simp only [Except.ok.injEq, Prod.mk.injEq] at h2
        exact Or.inr ⟨cat, nm, rfl,
          classifyCats_assigned_earliest nm specs mf m2 cat hc, h2.2.symm⟩

theorem classifyConfigs_mem_other (specs : List (List Char × List KwItem)) :
    ∀ (cfgs : List (List Char)) (mf : Option Bool) (cb : Buckets) (mf2 : Option Bool)
      (cb2 : Buckets) (x : List Char), x ∉ cfgs →
      classifyConfigs specs cfgs mf cb = Except.ok (mf2, cb2) →
      ∀ k, memBucketB cb2 k x = memBucketB cb k x := by
  intro cfgs
  induction cfgs with
  | nil =>
    intro mf cb mf2 cb2 x _ h k
    simp only [classifyConfigs, Except.ok.injEq, Prod.mk.injEq] at h
    rw [← h.2]
  | cons config rest ih =>
    intro mf cb mf2 cb2 x hx h k
    have hxc : x ≠ config := fun he => hx (he ▸ List.mem_cons_self _ _)
    have hxr : x ∉ rest := fun he => hx (List.mem_cons_of_mem _ he)
    rw [show classifyConfigs specs (config :: rest) mf cb =
        (match classifyStep specs config mf cb with
          | Except.error e => Except.error e
          | Except.ok (mf2, cb2) => classifyConfigs specs rest mf2 cb2) from rfl] at h
    cases hs : classifyStep specs config mf cb with
    | error e =>
      rw [hs] at h
      simp at h
    | ok pr =>
      obtain ⟨m1, cb1⟩ := pr
      rw [hs] at h
      have step := ih m1 cb1 mf2 cb2 x hxr h k
      rw [step]
      rcases classifyStep_buckets specs config mf cb m1 cb1 hs with rfl | ⟨cat, nm, -, -, rfl⟩
      · rfl
      · apply boolEqOfIff
        rw [memBucketB_add]
        constructor
        · rintro (h2 | ⟨-, rfl, -⟩)
          · exact h2
          · exact absurd rfl hxc
        · exact fun h2 => Or.inl h2
  
theorem classifyConfigs_hasKey (specs : List (List Char × List KwItem)) :
    ∀ (cfgs : List (List Char)) (mf : Option Bool) (cb : Buckets) (mf2 : Option Bool)
      (cb2 : Buckets),
      classifyConfigs specs cfgs mf cb = Except.ok (mf2, cb2) →
      ∀ k, hasKeyB cb2 k = hasKeyB cb k := by
  intro cfgs
  induction cfgs with
  | nil =>
    intro mf cb mf2 cb2 h k
    simp only [classifyConfigs, Except.ok.injEq, Prod.mk.injEq] at h
    rw [← h.2]
  | cons config rest ih =>
    intro mf cb mf2 cb2 h k
    rw [show classifyConfigs specs (config :: rest) mf cb =
        (match classifyStep specs config mf cb with
          | Except.error e => Except.error e
          | Except.ok (mf2, cb2) => classifyConfigs specs rest mf2 cb2) from rfl] at h
    cases hs : classifyStep specs config mf cb with
    | error e =>
      rw [hs] at h
      simp at h
    | ok pr =>
      obtain ⟨m1, cb1⟩ := pr
      rw [hs] at h
      rw [ih m1 cb1 mf2 cb2 h k]
      rcases classifyStep_buckets specs config mf cb m1 cb1 hs with rfl | ⟨cat, nm, -, -, rfl⟩
      · rfl
      · exact hasKeyB_add cb cat config k

/-- The intended first-match-wins classifier, as a pure function of the
name and the ordered specs: the first category whose surviving keywords
contain a match. -/
def classifySpec (nm : List Char) : List (List Char × List KwItem) → Option (List Char)
  | [] => none
  | (cat, kws) :: rest =>
    if keywordListMatches nm (text_keywords kws) = true then some cat
    else classifySpec nm rest

theorem classifyCats_false_spec (nm : List Char) :
    ∀ specs, ∃ m, classifyCats nm (some false) specs =
      Except.ok (m, classifySpec nm specs) := by
  intro specs
  induction specs with
  | nil => exact ⟨some false, rfl⟩
  | cons p rest ih =>
    obtain ⟨c0, k0⟩ := p
    by_cases h0 : text_keywords k0 = []
    · obtain ⟨m, hm⟩ := ih
      refine ⟨m, ?_⟩
      simp only [classifyCats, if_pos h0]
      rw [show classifySpec nm ((c0, k0) :: rest) = classifySpec nm rest from by
        simp [classifySpec, keywordListMatches, h0]]
      exact hm
    · by_cases hm : keywordListMatches nm (text_keywords k0) = true
      · refine ⟨some true, ?_⟩
        simp only [classifyCats, if_neg h0, if_pos hm]
        rw [show classifySpec nm ((c0, k0) :: rest) = some c0 from by
          simp [classifySpec, hm]]
      · obtain ⟨m, hmm⟩ := ih
        refine ⟨m, ?_⟩
        simp only [classifyCats, if_neg h0, if_neg hm]
        rw [show classifySpec nm ((c0, k0) :: rest) = classifySpec nm rest from by
          simp [classifySpec, hm]]
        exact hmm

theorem classifyCats_good_mf (nm c0 : List Char) (k0 : List KwItem)
    (rest : List (List Char × List KwItem)) (h : ¬ text_keywords k0 = [])
    (mf : Option Bool) :
    classifyCats nm mf ((c0, k0) :: rest) =
      classifyCats nm (some false) ((c0, k0) :: rest) := by
  simp only [classifyCats, if_neg h]

theorem classifyConfigs_nil_specs : ∀ (cfgs : List (List Char)) (mf : Option Bool)
    (cb : Buckets), classifyConfigs [] cfgs mf cb = Except.ok (mf, cb) := by
  intro cfgs
  induction cfgs with
  | nil => intro mf cb; rfl
  | cons config rest ih =>
    intro mf cb
    rw [show classifyConfigs [] (config :: rest) mf cb =
        (match classifyStep [] config mf cb with
          | Except.error e => Except.error e
          | Except.ok (m2, c2) => classifyConfigs [] rest m2 c2) from rfl]
    have hs : classifyStep [] config mf cb = Except.ok (mf, cb) := by
      unfold classifyStep
      cases hn : classify_name config with
      | none => rfl
      | some nm => rfl
    rw [hs]
    exact ih mf cb

theorem classifyConfigs_empty_first (cat : List Char) (kws : List KwItem)
    (rest : List (List Char × List KwItem)) (h : text_keywords kws = []) :
    ∀ (cfgs : List (List Char)) (cb : Buckets) (mf2 : Option Bool) (cb2 : Buckets),
      classifyConfigs ((cat, kws) :: rest) cfgs none cb = Except.ok (mf2, cb2) →
      mf2 = none ∧ cb2 = cb := by
  intro cfgs
  induction cfgs with
  | nil =>
    intro cb mf2 cb2 hr
    simp only [classifyConfigs, Except.ok.injEq, Prod.mk.injEq] at hr
    exact ⟨hr.1.symm, hr.2.symm⟩
  | cons config more ih =>
    intro cb mf2 cb2 hr
    rw [show classifyConfigs ((cat, kws) :: rest) (config :: more) none cb =
        (match classifyStep ((cat, kws) :: rest) config none cb with
          | Except.error e => Except.error e
          | Except.ok (m2, c2) => classifyConfigs ((cat, kws) :: rest) more m2 c2)
        from rfl] at hr
    cases hn : classify_name config with
    | none =>
      have hs : classifyStep ((cat, kws) :: rest) config none cb = Except.ok (none, cb) := by
        unfold classifyStep
        rw [hn]
      rw [hs] at hr
      exact ih cb mf2 cb2 hr
    | some nm =>
      have hs : classifyStep ((cat, kws) :: rest) config none cb =
          Except.error PyErr.nameError := by
        unfold classifyStep
        rw [hn]
        show (match classifyCats nm none ((cat, kws) :: rest) with
          | Except.error e => Except.error e
          | Except.ok (m2, none) => Except.ok (m2, cb)
          | Except.ok (m2, some c) => Except.ok (m2, bucketsAdd cb c config)) =
          Except.error PyErr.nameError
        rw [classifyCats_empty_first_none nm cat kws rest h]
      rw [hs] at hr
      simp at hr

theorem classifyConfigs_append (specs : List (List Char × List KwItem)) :
    ∀ (l1 l2 : List (List Char)) (mf : Option Bool) (cb : Buckets),
      classifyConfigs specs (l1 ++ l2) mf cb =
        (match classifyConfigs specs l1 mf cb with
          | Except.error e => Except.error e
          | Except.ok (m2, c2) => classifyConfigs specs l2 m2 c2) := by
  intro l1
  induction l1 with
  | nil => intro l2 mf cb; rfl
  | cons config rest ih =>
    intro l2 mf cb
    rw [List.cons_append]
    rw [show classifyConfigs specs (config :: (rest ++ l2)) mf cb =
        (match classifyStep specs config mf cb with
          | Except.error e => Except.error e
          | Except.ok (m2, c2) => classifyConfigs specs (rest ++ l2) m2 c2) from rfl]
    rw [show classifyConfigs specs (config :: rest) mf cb =
        (match classifyStep specs config mf cb with
          | Except.error e => Except.error e
          | Except.ok (m2, c2) => classifyConfigs specs rest m2 c2) from rfl]
    cases hs : classifyStep specs config mf cb with
    | error e => rfl
    | ok pr =>
      obtain ⟨m2, c2⟩ := pr
      exact ih l2 m2 c2

theorem classifyStep_last (specs : List (List Char × List KwItem))
    (hgood : specs = [] ∨
      ∃ c0 k0 rest, specs = (c0, k0) :: rest ∧ ¬ text_keywords k0 = [])
    (x : List Char) (mf : Option Bool) (cb : Buckets) (m : Option Bool) (c : Buckets)
    (h : classifyConfigs specs [x] mf cb = Except.ok (m, c)) (cat : List Char) :
    memBucketB c cat x =
      (match classify_name x with
        | none => memBucketB cb cat x
        | some nm =>
          match classifySpec nm specs with
          | none => memBucketB cb cat x
          | some a => (memBucketB cb cat x || (decide (cat = a) && hasKeyB cb a))) := by
  rw [show classifyConfigs specs [x] mf cb =
      (match classifyStep specs x mf cb with
        | Except.error e => Except.error e
        | Except.ok (m2, c2) => classifyConfigs specs [] m2 c2) from rfl] at h
  cases hn : classify_name x with
  | none =>
    have hs : classifyStep specs x mf cb = Except.ok (mf, cb) := by
      unfold classifyStep
      rw [hn]
    rw [hs] at h
    simp only [classifyConfigs, Except.ok.injEq, Prod.mk.injEq] at h
    rw [← h.2]
  | some nm =>
    rcases hgood with rfl | ⟨c0, k0, rest, rfl, h0⟩
    · have hs : classifyStep [] x mf cb = Except.ok (mf, cb) := by
        unfold classifyStep
        rw [hn]
        rfl
      rw [hs] at h
      simp only [classifyConfigs, Except.ok.injEq, Prod.mk.injEq] at h
      rw [← h.2]
      rfl
    · obtain ⟨mS, hS⟩ := classifyCats_false_spec nm ((c0, k0) :: rest)
      have hcats : classifyCats nm mf ((c0, k0) :: rest) =
          Except.ok (mS, classifySpec nm ((c0, k0) :: rest)) := by
        rw [classifyCats_good_mf nm c0 k0 rest h0 mf]
        exact hS
      cases ha : classifySpec nm ((c0, k0) :: rest) with
      | none =>
        have hs : classifyStep ((c0, k0) :: rest) x mf cb = Except.ok (mS, cb) := by
          unfold classifyStep
          rw [hn]
          show (match classifyCats nm mf ((c0, k0) :: rest) with
            | Except.error e => Except.error e
            | Except.ok (m2, none) => Except.ok (m2, cb)
            | Except.ok (m2, some c) => Except.ok (m2, bucketsAdd cb c x)) = _
          rw [hcats, ha]
        rw [hs] at h
        simp only [classifyConfigs, Except.ok.injEq, Prod.mk.injEq] at h
        rw [← h.2]
        show memBucketB cb cat x =
          (match classifySpec nm ((c0, k0) :: rest) with
            | none => memBucketB cb cat x
            | some a => (memBucketB cb cat x || (decide (cat = a) && hasKeyB cb a)))
        rw [ha]
      | some a =>
        have hs : classifyStep ((c0, k0) :: rest) x mf cb =
            Except.ok (mS, bucketsAdd cb a x) := by
          unfold classifyStep
          rw [hn]
          show (match classifyCats nm mf ((c0, k0) :: rest) with
            | Except.error e => Except.error e
            | Except.ok (m2, none) => Except.ok (m2, cb)
            | Except.ok (m2, some c) => Except.ok (m2, bucketsAdd cb c x)) = _
          rw [hcats, ha]
        rw [hs] at h
        simp only [classifyConfigs, Except.ok.injEq, Prod.mk.injEq] at h
        rw [← h.2]
        show memBucketB (bucketsAdd cb a x) cat x =
          (match classifySpec nm ((c0, k0) :: rest) with
            | none => memBucketB cb cat x
            | some a => (memBucketB cb cat x || (decide (cat = a) && hasKeyB cb a)))
        rw [ha]
        apply boolEqOfIff
        rw [memBucketB_add]
        simp only [Bool.or_eq_true, Bool.and_eq_true, decide_eq_true_eq]
        constructor
        · rintro (h2 | ⟨rfl, -, hk⟩)
          · exact Or.inl h2
          · exact Or.inr ⟨rfl, hk⟩
        · rintro (h2 | ⟨rfl, hk⟩)
          · exact Or.inl h2
          · exact Or.inr ⟨rfl, trivial, hk⟩

/-- C9: classifier determinism as a two-run property.  Fix the ordered
country specs and a descriptor `x` (hence a fixed resolved name).  Run the
classification loop twice from the initial state, over two arbitrary
different lists of earlier descriptors (neither containing `x`), each run
ending by processing `x`.  If both runs complete without raising, then
`x` ends up in exactly the same country buckets in both runs: its
membership in every category's bucket is independent of which descriptors
were processed before it. -/
theorem c9_classifier_determinism
    (specs : List (List Char × List KwItem)) (L1 L2 : List (List Char))
    (x : List Char) (m1 m2 : Option Bool) (c1 c2 : Buckets)
    (hx1 : x ∉ L1) (hx2 : x ∉ L2)
    (h1 : classifyConfigs specs (L1 ++ [x]) none (initState specs).country
        = Except.ok (m1, c1))
    (h2 : classifyConfigs specs (L2 ++ [x]) none (initState specs).country
        = Except.ok (m2, c2)) :
    ∀ cat, memBucketB c1 cat x = memBucketB c2 cat x := by
  intro cat
  cases specs with
  | nil =>
    rw [classifyConfigs_nil_specs] at h1 h2
    simp only [Except.ok.injEq, Prod.mk.injEq] at h1 h2
    rw [← h1.2, ← h2.2]
  | cons p rest =>
    obtain ⟨c0, k0⟩ := p
    by_cases h0 : text_keywords k0 = []
    · obtain ⟨-, e1⟩ := classifyConfigs_empty_first c0 k0 rest h0 (L1 ++ [x])
        (initState ((c0, k0) :: rest)).country m1 c1 h1
      obtain ⟨-, e2⟩ := classifyConfigs_empty_first c0 k0 rest h0 (L2 ++ [x])
        (initState ((c0, k0) :: rest)).country m2 c2 h2
      rw [e1, e2]
    · rw [classifyConfigs_append] at h1 h2
      cases hA : classifyConfigs ((c0, k0) :: rest) L1 none
          (initState ((c0, k0) :: rest)).country with
      | error e =>
        rw [hA] at h1
        simp at h1
      | ok prA =>
        obtain ⟨mA, cA⟩ := prA
        rw [hA] at h1
        have h1' : classifyConfigs ((c0, k0) :: rest) [x] mA cA =
            Except.ok (m1, c1) := h1
        cases hB : classifyConfigs ((c0, k0) :: rest) L2 none
            (initState ((c0, k0) :: rest)).country with
        | error e =>
          rw [hB] at h2
          simp at h2
        | ok prB =>
          obtain ⟨mB, cB⟩ := prB
          rw [hB] at h2
          have h2' : classifyConfigs ((c0, k0) :: rest) [x] mB cB =
              Except.ok (m2, c2) := h2
          have g1 := classifyStep_last ((c0, k0) :: rest)
            (Or.inr ⟨c0, k0, rest, rfl, h0⟩) x mA cA m1 c1 h1' cat
          have g2 := classifyStep_last ((c0, k0) :: rest)
            (Or.inr ⟨c0, k0, rest, rfl, h0⟩) x mB cB m2 c2 h2' cat
          have memA := classifyConfigs_mem_other ((c0, k0) :: rest) L1 none
            (initState ((c0, k0) :: rest)).country mA cA x hx1 hA cat
          have memB := classifyConfigs_mem_other ((c0, k0) :: rest) L2 none
            (initState ((c0, k0) :: rest)).country mB cB x hx2 hB cat
          have keyA := classifyConfigs_hasKey ((c0, k0) :: rest) L1 none
            (initState ((c0, k0) :: rest)).country mA cA hA
          have keyB := classifyConfigs_hasKey ((c0, k0) :: rest) L2 none
            (initState ((c0, k0) :: rest)).country mB cB hB
          rw [g1, g2]
          simp only [memA, memB, keyA, keyB]

theorem c9_witness :
    (strL "a#US-1") ∉ ([] : List (List Char)) ∧
    (strL "a#US-1") ∉ [strL "b#US-2"] ∧
    classifyConfigs [(strL "USA", [KwItem.str (strL "us")])]
        ([] ++ [strL "a#US-1"]) none
        (initState [(strL "USA", [KwItem.str (strL "us")])]).country
      = Except.ok (some true, [(strL "USA", [strL "a#US-1"])]) ∧
    classifyConfigs [(strL "USA", [KwItem.str (strL "us")])]
        ([strL "b#US-2"] ++ [strL "a#US-1"]) none
        (initState [(strL "USA", [KwItem.str (strL "us")])]).country
      = Except.ok (some true, [(strL "USA", [strL "b#US-2", strL "a#US-1"])]) ∧
    memBucketB [(strL "USA", [strL "a#US-1"])] (strL "USA") (strL "a#US-1")
      = memBucketB [(strL "USA", [strL "b#US-2", strL "a#US-1"])] (strL "USA")
          (strL "a#US-1") :=
  ⟨by decide, by decide, by rfl, by rfl,
    c9_classifier_determinism [(strL "USA", [KwItem.str (strL "us")])] []
      [strL "b#US-2"] (strL "a#US-1") (some true) (some true)
      [(strL "USA", [strL "a#US-1"])]
      [(strL "USA", [strL "b#US-2", strL "a#US-1"])]
      (by decide) (by decide) (by rfl) (by rfl) (strL "USA")⟩

theorem processPage_parts (specs : List (List Char × List KwItem))
    (ms : List (List Char × List (List Char))) (st st2 : RunState)
    (h : processPage specs ms st = Except.ok st2) :
    st2.prot = (pageFilterStep ms ([], st.prot)).2 ∧
    ∃ mf2, classifyConfigs specs (pageFilterStep ms ([], st.prot)).1 st.mf st.country
        = Except.ok (mf2, st2.country) := by
  unfold processPage at h
  cases hp : pageFilterStep ms ([], st.prot) with
  | mk af prot2 =>
    rw [hp] at h
    have h2 : (match classifyConfigs specs af st.mf st.country with
        | Except.error e => Except.error e
        | Except.ok (mf2, cb2) => Except.ok (⟨mf2, prot2, cb2⟩ : RunState)) =
        Except.ok st2 := h
    cases hc : classifyConfigs specs af st.mf st.country with
    | error e =>
      rw [hc] at h2
      simp at h2
    | ok pr =>
      obtain ⟨mf2, cb2⟩ := pr
      rw [hc] at h2
      have h' : (Except.ok ⟨mf2, prot2, cb2⟩ : Except PyErr RunState) = Except.ok st2 := h2
      injection h' with h3
      subst h3
      exact ⟨rfl, mf2, rfl⟩

theorem earliest_aux (nm : List Char) : ∀ (pre pre' : List (List Char × List KwItem))
    (cat cat' : List Char) (kws kws' : List KwItem)
    (post post' : List (List Char × List KwItem)),
    pre ++ (cat, kws) :: post = pre' ++ (cat', kws') :: post' →
    keywordListMatches nm (text_keywords kws) = true →
    keywordListMatches nm (text_keywords kws') = true →
    (∀ q ∈ pre, keywordListMatches nm (text_keywords q.2) = false) →
    (∀ q ∈ pre', keywordListMatches nm (text_keywords q.2) = false) →
    cat = cat' := by
  intro pre
  induction pre with
  | nil =>
    intro pre' cat cat' kws kws' post post' he hm hm' hpre hpre'
    cases pre' with
    | nil =>
      injection he with h1 h2
      exact congrArg Prod.fst h1
    | cons r rs =>
      injection he with h1 h2
      have hf := hpre' r (List.mem_cons_self _ _)
      rw [← h1] at hf
      rw [hf] at hm
      cases hm
  | cons q qs ih =>
    intro pre' cat cat' kws kws' post post' he hm hm' hpre hpre'
    cases pre' with
    | nil =>
      injection he with h1 h2
      have hf := hpre q (List.mem_cons_self _ _)
      rw [h1] at hf
      rw [hf] at hm'
      cases hm'
    | cons r rs =>
      injection he with h1 h2
      exact ih rs cat cat' kws kws' post post' h2 hm hm'
        (fun p hp => hpre p (List.mem_cons_of_mem _ hp))
        (fun p hp => hpre' p (List.mem_cons_of_mem _ hp))

theorem isEarliestMatch_unique (nm : List Char) (specs : List (List Char × List KwItem))
    (cat cat' : List Char) (h : IsEarliestMatch nm specs cat)
    (h' : IsEarliestMatch nm specs cat') : cat = cat' := by
  obtain ⟨pre, kws, post, heq, hm, hpre⟩ := h
  obtain ⟨pre', kws', post', heq', hm', hpre'⟩ := h'
  exact earliest_aux nm pre pre' cat cat' kws kws' post post'
    (heq.symm.trans heq') hm hm' hpre hpre'

theorem classifyConfigs_mem_new (specs : List (List Char × List KwItem)) :
    ∀ (cfgs : List (List Char)) (mf : Option Bool) (cb : Buckets) (mf2 : Option Bool)
      (cb2 : Buckets), classifyConfigs specs cfgs mf cb = Except.ok (mf2, cb2) →
      ∀ cat x, memBucketB cb2 cat x = true →
        memBucketB cb cat x = true ∨
          ∃ nm, classify_name x = some nm ∧ IsEarliestMatch nm specs cat := by
  intro cfgs
  induction cfgs with
  | nil =>
    intro mf cb mf2 cb2 h cat x hm
    simp only [classifyConfigs, Except.ok.injEq, Prod.mk.injEq] at h
    rw [← h.2] at hm
    exact Or.inl hm
  | cons config rest ih =>
    intro mf cb mf2 cb2 h cat x hm
    rw [show classifyConfigs specs (config :: rest) mf cb =
        (match classifyStep specs config mf cb with
          | Except.error e => Except.error e
          | Except.ok (m2, c2) => classifyConfigs specs rest m2 c2) from rfl] at h
    cases hs : classifyStep specs config mf cb with
    | error e =>
      rw [hs] at h
      simp at h
    | ok pr =>
      obtain ⟨m1, cb1⟩ := pr
      rw [hs] at h
      rcases ih m1 cb1 mf2 cb2 h cat x hm with hmem1 | hnew
      · rcases classifyStep_buckets specs config mf cb m1 cb1 hs with
          rfl | ⟨cat', nm', hn', he', rfl⟩
        · exact Or.inl hmem1
        · rw [memBucketB_add] at hmem1
          rcases hmem1 with h2 | ⟨rfl, rfl, -⟩
          · exact Or.inl h2
          · exact Or.inr ⟨nm', hn', he'⟩
      · exact Or.inr hnew

/-- C1: for a descriptor `x` of one processed page that passes the filter
and has a non-empty resolved name `nm`, and whose pattern matched exactly
the protocol category `k0` of the page's extractor output: after the page
is processed from the initial state, (1) `x` is in exactly one protocol
bucket, namely `k0`; (2) `x` is only ever in a country bucket that is the
earliest country category (in iteration order) containing a keyword
matching `nm`; (3) there is at most one such earliest category; (4) once a
category is assigned, all subsequent categories are ignored: extending the
spec list past the assignment point cannot change the outcome; (5) within
a category the scan stops at the first matching keyword: the keyword-list
verdict is fixed by the prefix up to the first match and is independent of
the remaining keywords. -/
theorem c1_single_protocol_earliest_country
    (specs : List (List Char × List KwItem))
    (ms : List (List Char × List (List Char)))
    (st2 : RunState) (x nm k0 : List Char) (l0 : List (List Char))
    (hrun : processPage specs ms (initState specs) = Except.ok st2)
    (hflt : should_filter_config x = false)
    (hnm : classify_name x = some nm)
    (hk0 : (k0, l0) ∈ ms) (hk0p : k0 ∈ PROTOCOL_CATEGORIES) (hx0 : x ∈ l0)
    (huniq : ∀ q ∈ ms, x ∈ q.2 → q.1 = k0) :
    (∀ k, memBucketB st2.prot k x = true ↔ k = k0) ∧
    (∀ cat, memBucketB st2.country cat x = true → IsEarliestMatch nm specs cat) ∧
    (∀ cat cat', IsEarliestMatch nm specs cat → IsEarliestMatch nm specs cat' →
      cat = cat') ∧
    (∀ mf mf2 cat, classifyCats nm mf specs = Except.ok (mf2, some cat) →
      ∀ post, classifyCats nm mf (specs ++ post) = Except.ok (mf2, some cat)) ∧
    (∀ kw pre post post', keywordMatches kw nm = true →
      keywordListMatches nm (pre ++ kw :: post) = true ∧
      keywordListMatches nm (pre ++ kw :: post) =
        keywordListMatches nm (pre ++ kw :: post')) := by
  obtain ⟨hprot, mf2, hclass⟩ := processPage_parts specs ms (initState specs) st2 hrun
  have hinitC : ∀ p ∈ (initState specs).country, p.2 = ([] : List (List Char)) := by
    intro p hp
    obtain ⟨c, -, rfl⟩ := List.mem_map.mp hp
    rfl
  have hinitP : ∀ p ∈ (initState specs).prot, p.2 = ([] : List (List Char)) := by
    intro p hp
    obtain ⟨c, -, rfl⟩ := List.mem_map.mp hp
    rfl
  refine ⟨?_, ?_, ?_, ?_, ?_⟩
  · intro k
    rw [hprot]
    constructor
    · intro hmem
      rcases (pageFilterStep_mem ms ([], (initState specs).prot) k x).mp hmem with
        hbase | ⟨-, -, -, l, hl, hxl⟩
      · have hbase' : memBucketB (initState specs).prot k x = true := hbase
        rw [memBucketB_allEmpty (initState specs).prot hinitP k x] at hbase'
        cases hbase'
      · exact huniq (k, l) hl hxl
    · rintro rfl
      refine (pageFilterStep_mem ms ([], (initState specs).prot) _ x).mpr
        (Or.inr ⟨hk0p, ?_, hflt, l0, hk0, hx0⟩)
      exact hasKeyB_init_of_mem PROTOCOL_CATEGORIES _ hk0p
  · intro cat hm
    rcases classifyConfigs_mem_new specs _ _ _ _ _ hclass cat x hm with
      hbase | ⟨nm', hn', he'⟩
    · rw [memBucketB_allEmpty (initState specs).country hinitC cat x] at hbase
      cases hbase
    · rw [hnm] at hn'
      injection hn' with e
      subst e
      exact he'
  · intro cat cat' h h'
    exact isEarliestMatch_unique nm specs cat cat' h h'
  · intro mf mf2' cat hc post
    exact classifyCats_assigned_extend nm specs mf mf2' cat hc post
  · intro kw pre post post' hkw
    have h1 : keywordListMatches nm (pre ++ kw :: post) = true := by
      unfold keywordListMatches
      rw [List.any_eq_true]
      exact ⟨kw, by simp, hkw⟩
    have h2 : keywordListMatches nm (pre ++ kw :: post') = true := by
      unfold keywordListMatches
      rw [List.any_eq_true]
      exact ⟨kw, by simp, hkw⟩
    exact ⟨h1, h1.trans h2.symm⟩

theorem c1_witness :
    should_filter_config (strL "a#US-1") = false ∧
    classify_name (strL "a#US-1") = some (strL "US-1") ∧
    memBucketB [(strL "Vmess", [strL "a#US-1"]), (strL "Vless", []),
        (strL "Trojan", []), (strL "ShadowSocks", []), (strL "ShadowSocksR", []),
        (strL "Tuic", []), (strL "Hysteria2", []), (strL "WireGuard", [])]
      (strL "Vmess") (strL "a#US-1") = true ∧
    IsEarliestMatch (strL "US-1") [(strL "USA", [KwItem.str (strL "us")])]
      (strL "USA") := by
  have T := c1_single_protocol_earliest_country
    [(strL "USA", [KwItem.str (strL "us")])]
    [(strL "Vmess", [strL "a#US-1"])]
    ⟨some true,
      [(strL "Vmess", [strL "a#US-1"]), (strL "Vless", []),
        (strL "Trojan", []), (strL "ShadowSocks", []), (strL "ShadowSocksR", []),
        (strL "Tuic", []), (strL "Hysteria2", []), (strL "WireGuard", [])],
      [(strL "USA", [strL "a#US-1"])]⟩
    (strL "a#US-1") (strL "US-1") (strL "Vmess") [strL "a#US-1"]
    (by rfl) (by rfl) (by rfl) (by decide) (by decide) (by decide) (by decide)
  exact ⟨by decide, by rfl, (T.1 (strL "Vmess")).mpr rfl,
    T.2.1 (strL "USA") (by rfl)⟩

theorem processPage_filtered (specs : List (List Char × List KwItem))
    (ms : List (List Char × List (List Char))) (st st2 : RunState)
    (h : processPage specs ms st = Except.ok st2) (y : List Char)
    (hf : should_filter_config y = true)
    (hp : ∀ k, memBucketB st.prot k y = false)
    (hc : ∀ k, memBucketB st.country k y = false) :
    (∀ k, memBucketB st2.prot k y = false) ∧
    (∀ k, memBucketB st2.country k y = false) := by
  obtain ⟨hprot, mf2, hclass⟩ := processPage_parts specs ms st st2 h
  constructor
  · intro k
    rw [hprot]
    apply Bool.eq_false_iff.mpr
    intro hmem
    rcases (pageFilterStep_mem ms ([], st.prot) k y).mp hmem with
      hbase | ⟨-, -, hff, -⟩
    · have hb : memBucketB st.prot k y = true := hbase
      rw [hp k] at hb
      cases hb
    · rw [hf] at hff
      cases hff
  · have hynotaf : y ∉ (pageFilterStep ms ([], st.prot)).1 := by
      intro hy
      rcases (pageFilterStep_af ms ([], st.prot) y).mp hy with
        hbase | ⟨q, -, -, -, hff⟩
      · exact (List.not_mem_nil y) hbase
      · rw [hf] at hff
        cases hff
    intro k
    rw [classifyConfigs_mem_other specs _ _ _ _ _ y hynotaf hclass k]
    exact hc k

theorem runPages_filtered (specs : List (List Char × List KwItem)) :
    ∀ (pages : List (List (List Char × List (List Char)))) (st st2 : RunState),
      runPages specs pages st = Except.ok st2 →
      ∀ y, should_filter_config y = true →
        (∀ k, memBucketB st.prot k y = false) →
        (∀ k, memBucketB st.country k y = false) →
        (∀ k, memBucketB st2.prot k y = false) ∧
        (∀ k, memBucketB st2.country k y = false) := by
  intro pages
  induction pages with
  | nil =>
    intro st st2 h y hfy hp hc
    have h' : (Except.ok st : Except PyErr RunState) = Except.ok st2 := h
    injection h' with h2
    subst h2
    exact ⟨hp, hc⟩
  | cons pg more ih =>
    intro st st2 h y hfy hp hc
    have h2 : (match processPage specs pg st with
        | Except.error e => Except.error e
        | Except.ok stM => runPages specs more stM) = Except.ok st2 := h
    cases hpp : processPage specs pg st with
    | error e =>
      rw [hpp] at h2
      simp at h2
    | ok stM =>
      rw [hpp] at h2
      obtain ⟨p1, c1⟩ := processPage_filtered specs pg st stM hpp y hfy hp hc
      exact ih stM st2 h2 y hfy p1 c1

/-- C8: a descriptor enters a bucket only after passing the config filter.
For every run of the page loop from the initial state that completes
without raising, every descriptor rejected by `should_filter_config` —
whatever pages were fetched and even if it occurs in the pattern-extractor
matches of those pages — is absent from every protocol bucket and from
every country bucket of the final state (hence contributes to no
aggregate count, which are the lengths of these buckets); in particular a
descriptor consisting of `%25` repeated 20 times is rejected by the
filter. -/
theorem c8_filtered_never_bucketed
    (specs : List (List Char × List KwItem))
    (pages : List (List (List Char × List (List Char)))) (st2 : RunState)
    (y : List Char)
    (hrun : runPages specs pages (initState specs) = Except.ok st2)
    (hf : should_filter_config y = true) :
    (∀ k, memBucketB st2.prot k y = false) ∧
    (∀ k, memBucketB st2.country k y = false) ∧
    should_filter_config (repList 20 (strL "%25")) = true := by
  have hinitP : ∀ k, memBucketB (initState specs).prot k y = false := fun k =>
    memBucketB_allEmpty _
      (by intro p hp; obtain ⟨c, -, rfl⟩ := List.mem_map.mp hp; rfl) k y
  have hinitC : ∀ k, memBucketB (initState specs).country k y = false := fun k =>
    memBucketB_allEmpty _
      (by intro p hp; obtain ⟨c, -, rfl⟩ := List.mem_map.mp hp; rfl) k y
  obtain ⟨a, b⟩ :=
    runPages_filtered specs pages (initState specs) st2 hrun y hf hinitP hinitC
  exact ⟨a, b, by decide⟩

theorem c8_witness :
    should_filter_config (repList 20 (strL "%25")) = true ∧
    runPages [(strL "USA", [KwItem.str (strL "us")])]
        [[(strL "Vmess", [repList 20 (strL "%25")])]]
        (initState [(strL "USA", [KwItem.str (strL "us")])])
      = Except.ok ⟨none, PROTOCOL_CATEGORIES.map (fun c => (c, [])),
          [(strL "USA", [])]⟩ ∧
    memBucketB (PROTOCOL_CATEGORIES.map (fun c => (c, []))) (strL "Vmess")
        (repList 20 (strL "%25")) = false ∧
    memBucketB [(strL "USA", [])] (strL "USA") (repList 20 (strL "%25")) = false := by
  have T := c8_filtered_never_bucketed [(strL "USA", [KwItem.str (strL "us")])]
    [[(strL "Vmess", [repList 20 (strL "%25")])]]
    ⟨none, PROTOCOL_CATEGORIES.map (fun c => (c, [])), [(strL "USA", [])]⟩
    (repList 20 (strL "%25")) (by rfl) (by decide)
  exact ⟨by decide, by rfl, T.1 (strL "Vmess"), T.2.1 (strL "USA")⟩
